import Mathlib

/-!
Verification of the SEP-39 slot codec (`sep39.py`).

Python `str` values are modelled as lists of Unicode code points and Python
`bytes` values as lists of byte values, so Python slicing becomes
`List.take` / `List.drop` and `bytes.decode("ascii")` / `str.encode("ascii")`
become checked identities.  Every `raise`, `assert` and Python builtin
exception site of the source becomes an `Except` error value.  The two
external collaborators (the basE91 codec and zlib's CRC32) are not part of
the repository; they are modelled from the spec as executable functions.
All loops are given structural fuel so that every definition evaluates in
the kernel.
-/

/-- Decidable equality of `Except` results, used to evaluate concrete
encode/decode runs inside proofs. -/
instance {ε α : Type} [DecidableEq ε] [DecidableEq α] : DecidableEq (Except ε α)
  | .error a, .error b => decidable_of_iff (a = b) (by simp)
  | .error _, .ok _ => isFalse (fun h => Except.noConfusion h)
  | .ok _, .error _ => isFalse (fun h => Except.noConfusion h)
  | .ok a, .ok b => decidable_of_iff (a = b) (by simp)

namespace Sep39

/-- Python strings: lists of Unicode code points. -/
abbrev Str := List Nat

/-- Python byte strings: lists of byte values. -/
abbrev Bytes := List Nat

/-- One error value per `raise` / `assert` / builtin-exception site of
`sep39.py`.  `outOfFuel` is an artifact of the fuelled embedding and is
unreachable whenever the fuel is at least the length of the data driving
the loop. -/
inductive Err where
  | payloadTooLarge
  | missingSizeParam
  | indexOutOfRange
  | asciiError
  | invalidRow
  | invalidLength
  | metadataFailed
  | malformedParam
  | badSizeValue
  | checksumMismatch (expected : Str) (actual : Nat)
  | outOfFuel
deriving DecidableEq, Repr

/-- Python `str.encode("ascii")`: identity on code points below 128,
`UnicodeEncodeError` otherwise. -/
def strToAscii (s : Str) : Except Err Bytes :=
  if s.all (fun c => decide (c < 128)) then .ok s else .error .asciiError

/-- Python `bytes.decode("ascii")`: identity on byte values below 128,
`UnicodeDecodeError` otherwise. -/
def bytesToAscii (b : Bytes) : Except Err Str :=
  if b.all (fun c => decide (c < 128)) then .ok b else .error .asciiError

/-- Modelled from the spec: the encoded length of the external basE91 codec
(`encode91 : bytes → text`), a black box whose output for `m` input bytes is
`⌈16·m/13⌉` characters — never smaller than the input, at most ≈1.23× larger,
and never below the 10% overhead that the near-fit search in
`_encode_nearest` assumes. -/
def encLen (m : Nat) : Nat := (16 * m + 12) / 13

/-- Number of bytes carried by a (final, possibly partial) basE91 block of
`k` characters; inverse of `encLen` on block sizes `0 ≤ m ≤ 13`. -/
def decLen (k : Nat) : Nat := 13 * k / 16

/-- Value of a list of little-endian base-256 digits. -/
def bytesToNat : Bytes → Nat
  | [] => 0
  | b :: bs => b + 256 * bytesToNat bs

/-- The `m` little-endian base-256 digits of `N`. -/
def natToBytes : Nat → Nat → Bytes
  | 0, _ => []
  | m + 1, n => n % 256 :: natToBytes m (n / 256)

/-- The `k` little-endian base-91 digits of `N`, as printable code points
33‥123. -/
def natToB91 : Nat → Nat → List Nat
  | 0, _ => []
  | k + 1, n => (33 + n % 91) :: natToB91 k (n / 91)

/-- Value of a list of base-91 digit code points. -/
def b91ToNat : List Nat → Nat
  | [] => 0
  | c :: cs => (c - 33) + 91 * b91ToNat cs

/-- Modelled from the spec: one basE91 block — at most 13 bytes become
`encLen` printable characters (capacity: `256^13 ≤ 91^16`). -/
def encodeBlock (bs : Bytes) : Str := natToB91 (encLen bs.length) (bytesToNat bs)

/-- Modelled from the spec: decoding of one basE91 block. -/
def decodeBlock (cs : Str) : Bytes := natToBytes (decLen cs.length) (b91ToNat cs)

/-- Fuelled block-by-block basE91 encoder; `fuel ≥ bs.length` suffices. -/
def b91encAux : Nat → Bytes → Str
  | 0, _ => []
  | f + 1, bs =>
    if bs.length ≤ 13 then encodeBlock bs
    else encodeBlock (bs.take 13) ++ b91encAux f (bs.drop 13)

/-- Modelled from the spec: the external `base91.encode : bytes → text`. -/
def base91encode (bs : Bytes) : Str := b91encAux bs.length bs

/-- Fuelled block-by-block basE91 decoder; `fuel ≥ cs.length` suffices. -/
def b91decAux : Nat → Str → Bytes
  | 0, _ => []
  | f + 1, cs =>
    if cs.length ≤ 16 then decodeBlock cs
    else decodeBlock (cs.take 16) ++ b91decAux f (cs.drop 16)

/-- Modelled from the spec: the external `base91.decode : text → bytes`. -/
def base91decode (cs : Str) : Bytes := b91decAux cs.length cs

/-- Modelled from the spec: one bit step of zlib's reflected CRC-32
(polynomial 0xEDB88320). -/
def crcBit (c : Nat) : Nat := if c % 2 = 1 then (c / 2) ^^^ 0xEDB88320 else c / 2

/-- Iterated CRC bit steps. -/
def crcBits : Nat → Nat → Nat
  | 0, c => c
  | n + 1, c => crcBits n (crcBit c)

/-- One byte of CRC-32 state update. -/
def crcByte (c b : Nat) : Nat := crcBits 8 (c ^^^ (b % 256))

/-- Modelled from the spec: the external checksum collaborator
`zlib.crc32 : bytes → uint32`. -/
def crc32 (bs : Bytes) : Nat := (bs.foldl crcByte 0xFFFFFFFF) ^^^ 0xFFFFFFFF

/-- Little-endian decimal digits of `n` (fuelled; `fuel ≥ n` suffices). -/
def decDigitsRev : Nat → Nat → List Nat
  | 0, _ => []
  | f + 1, n => if n = 0 then [] else n % 10 :: decDigitsRev f (n / 10)

/-- Value of a list of little-endian decimal digits (proof helper). -/
def ofDigitsRev : List Nat → Nat
  | [] => 0
  | d :: ds => d + 10 * ofDigitsRev ds

/-- Python `str(n)` for a natural number, as ASCII digit code points. -/
def natToDecStr (n : Nat) : Str :=
  if n = 0 then [48] else ((decDigitsRev n n).reverse).map (fun d => d + 48)

/-- Python `int(s, 10)` on a nonempty all-digit string. -/
def decStrToNat (s : Str) : Nat := s.foldl (fun a c => 10 * a + (c - 48)) 0

/-- One media descriptor: a `type/subtype` token plus an insertion-ordered
parameter dictionary, exactly the pairs `encode` takes. -/
structure MediaDescriptor where
  type_subtype : Str
  params : List (Str × Str)
deriving DecidableEq, Repr

/-- `render_media_type` (sep39.py lines 15-17):
`f"{media_type}{';' if params else ''}" + ';'.join(f"{k}={v}" ...)`.
The source performs no validation of the tokens. -/
def render_media_type (media_type : Str) (params : List (Str × Str)) : Str :=
  media_type ++ (if params = [] then [] else [59]) ++
    List.intercalate [59] (params.map (fun kv => kv.1 ++ [61] ++ kv.2))

/-- Character `d` of the base-36 alphabet
`string.digits + string.ascii_lowercase`. -/
def b36chr (d : Nat) : Nat := if d < 10 then 48 + d else 87 + d

/-- `_encode_index` (lines 158-162); the `assert 0 <= i <= 1295` becomes an
error value (`i : Nat` is never negative). -/
def _encode_index (i : Nat) : Except Err Str :=
  if i ≤ 1295 then .ok [b36chr (i / 36), b36chr (i % 36)] else .error .indexOutOfRange

/-- The largest byte count whose modelled basE91 encoding fits within `n`
characters (proof helper for the near-fit characterization). -/
def maxFit (n : Nat) : Nat := 13 * n / 16

/-- The starting candidate `int(math.ceil(n / 1.10))` of `_encode_nearest`,
as the exact rational ceiling `⌈10·n/11⌉`; this agrees with the Python
floating-point computation for every budget `0 ≤ n ≤ 64` that `encode`
can pass. -/
def nearestStart (n : Nat) : Nat := (10 * n + 10) / 11

/-- The downward search loop of `_encode_nearest` over candidate prefix
sizes `i, i-1, …, 1` (line 171-174). -/
def nearestLoop (data : Bytes) (n : Nat) : Nat → Str × Bytes × Nat
  | 0 => ([], data, 0)
  | i + 1 =>
    let encoded := base91encode (data.take (i + 1))
    if encoded.length ≤ n then (encoded, data.drop (i + 1), i + 1)
    else nearestLoop data n i

/-- `_encode_nearest` (lines 164-176). -/
def _encode_nearest (data : Bytes) (n : Nat) : Str × Bytes × Nat :=
  nearestLoop data n (nearestStart n)

/-- One ledger slot: a key string and a value byte string. -/
structure Slot where
  key : Str
  val : Bytes
deriving DecidableEq, Repr

/-- The header loop of `encode` (lines 53-56):
`for i in range(0, len(header), 62+64)` with
`key = index(i) + header[i:i+62]`, `value = header[i+62:i+126]`.
Fuelled; `fuel ≥ header.length` suffices. -/
def headerRows (header : Str) : Nat → Nat → Except Err (List Slot)
  | 0, _ => .ok []
  | f + 1, i =>
    if i < header.length then do
      let idx ← _encode_index i
      let value ← strToAscii ((header.drop (i + 62)).take 64)
      let rest ← headerRows header f (i + 126)
      .ok (⟨idx ++ (header.drop i).take 62, value⟩ :: rest)
    else .ok []

/-- The binary-slot loop of `encode` (lines 68-74): while payload remains,
each new slot's key is the index plus a near-fit basE91 chunk and its value
the next up-to-64 raw bytes.  Fuelled; `fuel ≥ data.length` suffices. -/
def binaryRows : Nat → Nat → Bytes → Except Err (List Slot)
  | 0, _, data => if data = [] then .ok [] else .error .outOfFuel
  | f + 1, i, data =>
    if data = [] then .ok []
    else do
      let index ← _encode_index i
      let r := _encode_nearest data (64 - index.length)
      let value := r.2.1.take 64
      let rest ← binaryRows f (i + 1) (r.2.1.drop 64)
      .ok (⟨index ++ r.1, value⟩ :: rest)

/-- Lines 49-76 of `encode`, after the validation checks: frame the header,
lay it across slots, top off the last header slot with near-fit payload in
the key and raw payload in the value, then emit binary slots. -/
def encodeCore (metadata : Str) (data : Bytes) : Except Err (List Slot) := do
  let header := [49] ++ natToDecStr metadata.length ++ metadata
  let rows ← headerRows header header.length 0
  match rows.getLast? with
  | none => .error .indexOutOfRange
  | some last => do
    let r := _encode_nearest data (64 - last.key.length)
    let value2 := last.val ++ r.2.1.take (64 - last.val.length)
    let data2 := r.2.1.drop (64 - last.val.length)
    let rest ← binaryRows data2.length rows.length data2
    .ok (rows.dropLast ++ [⟨last.key ++ r.1, value2⟩] ++ rest)

/-- Checks whether a parameter dictionary declares the key `k`. -/
def lookupParam (ps : List (Str × Str)) (k : Str) : Option Str :=
  match ps.find? (fun p => p.1 == k) with
  | some p => some p.2
  | none => none

/-- `encode` (lines 19-76): size precondition, size-parameter precondition,
metadata rendering, then the core packing. -/
def encode (data : Bytes) (media_types : List MediaDescriptor) : Except Err (List Slot) :=
  if 126000 ≤ data.length then .error .payloadTooLarge
  else if ¬ media_types.dropLast.all (fun d => (lookupParam d.params [115]).isSome) then
    .error .missingSizeParam
  else
    encodeCore
      (List.intercalate [44]
        (media_types.map (fun d => render_media_type d.type_subtype d.params)))
      data

/-- The metadata-length digit loop of `decode` (lines 89-95):
`for j in range(3, 3+7)` reading digits, breaking early on a non-digit or on
a leading digit 0; on normal exhaustion Python leaves `j = 9`.  The second
argument counts the remaining iterations. -/
def lenLoop (key1 : Str) : Nat → Nat → Str → Except Err (Nat × Str)
  | _, 0, acc => .ok (9, acc)
  | j, r + 1, acc =>
    match key1.get? j with
    | none => .error .indexOutOfRange
    | some c =>
      if ¬ (48 ≤ c ∧ c ≤ 57) then .ok (j, acc)
      else if j = 3 ∧ c = 48 then .ok (j, acc ++ [c])
      else lenLoop key1 (j + 1) r (acc ++ [c])

/-- The full-row metadata consumption of `decode` (lines 118-119):
`metadata += key + value.decode("ascii")` for each row. -/
def consumeFulls : List Slot → Except Err Str
  | [] => .ok []
  | s :: rest => do
    let v ← bytesToAscii s.val
    let t ← consumeFulls rest
    .ok (s.key ++ v ++ t)

/-- The trailing binary reconstruction of `decode` (lines 132-133): for each
remaining slot, basE91-decode the key after its index and append the raw
value bytes. -/
def decResidual (rows : List Slot) : Bytes :=
  (rows.map (fun t => base91decode (t.key.drop 2) ++ t.val)).flatten

/-- Lines 86-133 of `decode`: frame check, self-delimiting length parse,
metadata reassembly across slots, and binary-stream reconstruction. -/
def decodeStream (rows : List Slot) : Except Err (Str × Bytes) := do
  let first ← match rows.head? with
    | some s => Except.ok s
    | none => Except.error Err.indexOutOfRange
  let key1 := first.key
  let value1 := first.val
  if key1.take 3 ≠ [48, 48, 49] then .error .invalidRow
  else do
    let jd ← lenLoop key1 3 7 []
    let j := jd.1
    if jd.2 = [] then .error .invalidLength
    else do
      let ml := decStrToNat jd.2
      if 126000 ≤ ml then .error .invalidLength
      else do
        let meta1 := (key1.drop j).take ml
        let v1 ← bytesToAscii (value1.take (ml - meta1.length))
        let meta2 := meta1 ++ v1
        let rem := ml - meta2.length
        let metadata ←
          (if 0 < rem then do
            let r := rem / 126
            let c := rem % 126
            let fulls ← consumeFulls ((rows.drop 1).take r)
            match rows.get? (1 + r) with
            | none => Except.error Err.indexOutOfRange
            | some s => do
              let v2 ← bytesToAscii (s.val.take (c - 64))
              Except.ok (meta2 ++ fulls ++ s.key.take c ++ v2)
          else Except.ok meta2)
        if metadata.length ≠ ml then .error .metadataFailed
        else do
          let hlen := 1 + (natToDecStr ml).length + ml
          let r2 := hlen / 126
          let c2 := hlen % 126
          match rows.get? r2 with
          | none => .error .indexOutOfRange
          | some s =>
            let binary := base91decode (s.key.drop (2 + c2)) ++ s.val.drop (c2 - 62)
            .ok (metadata, binary ++ decResidual (rows.drop (r2 + 1)))

/-- Python `dict(...)` built from a sequence of pairs: insertion-ordered,
with a duplicate key overwriting the stored value in place. -/
def dictInsert (d : List (Str × Str)) (kv : Str × Str) : List (Str × Str) :=
  if d.any (fun p => p.1 == kv.1) then
    d.map (fun p => if p.1 == kv.1 then (p.1, kv.2) else p)
  else d ++ [kv]

/-- Folding `dictInsert` over parsed parameter pairs. -/
def pyDict (l : List (Str × Str)) : List (Str × Str) := l.foldl dictInsert []

/-- One `param.split('=')` of `decode` line 138: Python `dict` accepts the
result only when the split yields exactly a key and a value. -/
def parseParam (p : Str) : Except Err (Str × Str) :=
  match p.splitOn 61 with
  | [k, v] => .ok (k, v)
  | _ => .error .malformedParam

/-- One `media.split(';')` group of `decode` lines 137-140. -/
def parseMedia (g : Str) : Except Err MediaDescriptor := do
  let segs := g.splitOn 59
  let ps ← (segs.drop 1).mapM parseParam
  match segs.head? with
  | some mt => .ok ⟨mt, pyDict ps⟩
  | none => .error .indexOutOfRange

/-- Lines 137-140 of `decode`: `metadata.split(',')`, then per group
`split(';')` and parameter parsing. -/
def parseMeta (metadata : Str) : Except Err (List MediaDescriptor) :=
  (metadata.splitOn 44).mapM parseMedia

/-- Python `int(s)` applied to a declared `s` parameter: nonempty all-digit
strings only. -/
def pyInt (s : Str) : Except Err Nat :=
  if s ≠ [] ∧ s.all (fun c => decide (48 ≤ c ∧ c ≤ 57)) then .ok (decStrToNat s)
  else .error .badSizeValue

/-- In Python, `chk != actual` on line 153 compares the declared checksum (a
`str` parsed out of the metadata) against the `int` returned by
`zlib.crc32`; objects of different types are never `==` in Python, so the
comparison is true for every declared checksum string. -/
def pyStrIntNe (_chk : Str) (_actual : Nat) : Bool := true

/-- Lines 145-154 of `decode`: slice the byte stream per descriptor
(`s` defaults to everything that remains) and perform the checksum
comparison when a `c` parameter was declared. -/
def splitBins : List MediaDescriptor → Bytes → Except Err (List Bytes)
  | [], _ => .ok []
  | d :: rest, binary => do
    let s ← match lookupParam d.params [115] with
      | some v => pyInt v
      | none => Except.ok binary.length
    let piece := binary.take s
    let actual := crc32 piece
    match lookupParam d.params [99] with
    | some chk =>
      if pyStrIntNe chk actual then Except.error (Err.checksumMismatch chk actual)
      else do
        let bs ← splitBins rest (binary.drop s)
        Except.ok (piece :: bs)
    | none => do
      let bs ← splitBins rest (binary.drop s)
      Except.ok (piece :: bs)

/-- `decode` (lines 78-156). -/
def decode (rows : List Slot) : Except Err (List MediaDescriptor × List Bytes) := do
  let sb ← decodeStream rows
  let mts ← parseMeta sb.1
  let bins ← splitBins mts sb.2
  .ok (mts, bins)

/-! ### Facts about the modelled basE91 codec -/

@[simp]
lemma natToB91_length (k n : Nat) : (natToB91 k n).length = k := by
  induction k generalizing n with
  | zero => rfl
  | succ k ih => simp [natToB91, ih]

@[simp]
lemma natToBytes_length (m n : Nat) : (natToBytes m n).length = m := by
  induction m generalizing n with
  | zero => rfl
  | succ m ih => simp [natToBytes, ih]

lemma b91ToNat_natToB91 (k n : Nat) (h : n < 91 ^ k) : b91ToNat (natToB91 k n) = n := by
  induction k generalizing n with
  | zero =>
    simp only [pow_zero, Nat.lt_one_iff] at h
    simp [natToB91, b91ToNat, h]
  | succ k ih =>
    have hdiv : n / 91 < 91 ^ k := by
      rw [Nat.div_lt_iff_lt_mul (by norm_num)]
      calc n < 91 ^ (k + 1) := h
        _ = 91 ^ k * 91 := by ring
    simp only [natToB91, b91ToNat, ih _ hdiv]
    omega

lemma bytesToNat_lt (bs : Bytes) (h : ∀ b ∈ bs, b < 256) :
    bytesToNat bs < 256 ^ bs.length := by
  induction bs with
  | nil => simp [bytesToNat]
  | cons b t ih =>
    have hb : b < 256 := h b (by simp)
    have ht := ih (fun x hx => h x (by simp [hx]))
    simp only [bytesToNat, List.length_cons, pow_succ]
    have hle : bytesToNat t + 1 ≤ 256 ^ t.length := ht
    nlinarith

lemma natToBytes_bytesToNat (bs : Bytes) (h : ∀ b ∈ bs, b < 256) :
    natToBytes bs.length (bytesToNat bs) = bs := by
  induction bs with
  | nil => rfl
  | cons b t ih =>
    have hb : b < 256 := h b (by simp)
    have hmod : (b + 256 * bytesToNat t) % 256 = b := by omega
    have hdiv : (b + 256 * bytesToNat t) / 256 = bytesToNat t := by omega
    simp only [List.length_cons, natToBytes, bytesToNat, hmod, hdiv]
    rw [ih (fun x hx => h x (by simp [hx]))]

lemma decLen_encLen : ∀ m ≤ 13, decLen (encLen m) = m := by decide

lemma block_capacity : ∀ m ≤ 13, 256 ^ m ≤ 91 ^ encLen m := by decide

lemma encLen_le_16 : ∀ m ≤ 13, encLen m ≤ 16 := by decide

lemma encLen_pos (m : Nat) (h : 1 ≤ m) : 2 ≤ encLen m := by unfold encLen; omega

lemma encLen_add13 (m : Nat) : encLen (m + 13) = encLen m + 16 := by unfold encLen; omega

lemma encLen_le_iff (m n : Nat) : encLen m ≤ n ↔ 16 * m ≤ 13 * n := by unfold encLen; omega

@[simp]
lemma encodeBlock_length (bs : Bytes) : (encodeBlock bs).length = encLen bs.length := by
  simp [encodeBlock]

lemma decodeBlock_encodeBlock (bs : Bytes) (h13 : bs.length ≤ 13) (h : ∀ b ∈ bs, b < 256) :
    decodeBlock (encodeBlock bs) = bs := by
  unfold decodeBlock
  rw [encodeBlock_length, decLen_encLen _ h13]
  unfold encodeBlock
  rw [b91ToNat_natToB91 _ _ (lt_of_lt_of_le (bytesToNat_lt bs h) (block_capacity _ h13))]
  exact natToBytes_bytesToNat bs h

@[simp]
lemma b91encAux_nil (f : Nat) : b91encAux f [] = [] := by cases f <;> rfl

@[simp]
lemma b91decAux_nil (f : Nat) : b91decAux f [] = [] := by cases f <;> rfl

lemma b91encAux_length : ∀ (f : Nat) (bs : Bytes), bs.length ≤ f →
    (b91encAux f bs).length = encLen bs.length := by
  intro f
  induction f with
  | zero =>
    intro bs hf
    have : bs = [] := List.eq_nil_of_length_eq_zero (Nat.le_zero.mp hf)
    subst this
    rfl
  | succ f ih =>
    intro bs hf
    rw [b91encAux]
    by_cases h13 : bs.length ≤ 13
    · rw [if_pos h13, encodeBlock_length]
    · rw [if_neg h13]
      have hdl : (bs.drop 13).length ≤ f := by
        simp only [List.length_drop]
        omega
      rw [List.length_append, encodeBlock_length, ih _ hdl]
      simp only [List.length_take, List.length_drop]
      rw [min_eq_left (by omega)]
      unfold encLen
      omega

@[simp]
lemma base91encode_nil : base91encode [] = [] := rfl

@[simp]
lemma base91decode_nil : base91decode [] = [] := rfl

@[simp]
lemma base91encode_length (bs : Bytes) : (base91encode bs).length = encLen bs.length :=
  b91encAux_length _ _ le_rfl

lemma b91decAux_fuel : ∀ (f g : Nat) (cs : Str), cs.length ≤ f → cs.length ≤ g →
    b91decAux f cs = b91decAux g cs := by
  intro f
  induction f with
  | zero =>
    intro g cs hf _
    have : cs = [] := List.eq_nil_of_length_eq_zero (Nat.le_zero.mp hf)
    subst this
    simp
  | succ f ih =>
    intro g cs hf hg
    match g with
    | 0 =>
      have : cs = [] := List.eq_nil_of_length_eq_zero (Nat.le_zero.mp hg)
      subst this
      simp
    | g + 1 =>
      rw [b91decAux, b91decAux]
      by_cases h16 : cs.length ≤ 16
      · rw [if_pos h16, if_pos h16]
      · rw [if_neg h16, if_neg h16]
        have h1 : (cs.drop 16).length ≤ f := by
          simp only [List.length_drop]; omega
        have h2 : (cs.drop 16).length ≤ g := by
          simp only [List.length_drop]; omega
        rw [ih _ _ h1 h2]

lemma b91decAux_eq_base91decode (f : Nat) (cs : Str) (hf : cs.length ≤ f) :
    b91decAux f cs = base91decode cs :=
  b91decAux_fuel f cs.length cs hf le_rfl

lemma base91decode_single (cs : Str) (h1 : 1 ≤ cs.length) (h16 : cs.length ≤ 16) :
    base91decode cs = decodeBlock cs := by
  match cs with
  | [] => simp at h1
  | c :: t =>
    show b91decAux (c :: t).length (c :: t) = _
    simp only [List.length_cons]
    rw [b91decAux, if_pos (by simpa using h16)]

lemma base91decode_block (blk rest : Str) (hblk : blk.length = 16) (h1 : 1 ≤ rest.length) :
    base91decode (blk ++ rest) = decodeBlock blk ++ base91decode rest := by
  have htot : (blk ++ rest).length = 16 + rest.length := by
    rw [List.length_append, hblk]
  match hcs : blk ++ rest with
  | [] => rw [hcs] at htot; simp at htot; omega
  | c :: t =>
    rw [hcs] at htot
    show b91decAux (c :: t).length (c :: t) = _
    simp only [List.length_cons] at htot ⊢
    rw [b91decAux, if_neg (by simp only [List.length_cons]; omega)]
    rw [← hcs, List.take_left' hblk, List.drop_left' hblk]
    rw [b91decAux_eq_base91decode _ _ (by omega)]

lemma base91decode_b91encAux : ∀ (f : Nat) (bs : Bytes), bs.length ≤ f →
    (∀ b ∈ bs, b < 256) → base91decode (b91encAux f bs) = bs := by
  intro f
  induction f with
  | zero =>
    intro bs hf _
    have : bs = [] := List.eq_nil_of_length_eq_zero (Nat.le_zero.mp hf)
    subst this
    rfl
  | succ f ih =>
    intro bs hf hb
    by_cases hnil : bs = []
    · subst hnil; simp
    · have hpos : 1 ≤ bs.length := by
        cases bs with
        | nil => exact absurd rfl hnil
        | cons b t => simp
      rw [b91encAux]
      by_cases h13 : bs.length ≤ 13
      · rw [if_pos h13]
        have h1' : 1 ≤ (encodeBlock bs).length := by
          rw [encodeBlock_length]
          have := encLen_pos _ hpos
          omega
        have h16' : (encodeBlock bs).length ≤ 16 := by
          rw [encodeBlock_length]; exact encLen_le_16 _ h13
        rw [base91decode_single _ h1' h16']
        exact decodeBlock_encodeBlock _ h13 hb
      · rw [if_neg h13]
        have hblk : (encodeBlock (bs.take 13)).length = 16 := by
          rw [encodeBlock_length, List.length_take, min_eq_left (by omega)]
          rfl
        have htlen : (bs.drop 13).length ≤ f := by
          simp only [List.length_drop]; omega
        have hrestlen : (b91encAux f (bs.drop 13)).length = encLen (bs.drop 13).length :=
          b91encAux_length _ _ htlen
        have hrest1 : 1 ≤ (b91encAux f (bs.drop 13)).length := by
          rw [hrestlen]
          have : 1 ≤ (bs.drop 13).length := by simp only [List.length_drop]; omega
          have := encLen_pos _ this
          omega
        rw [base91decode_block _ _ hblk hrest1]
        rw [decodeBlock_encodeBlock _ (by rw [List.length_take]; omega)
          (fun x hx => hb x (List.mem_of_mem_take hx))]
        rw [ih _ htlen (fun x hx => hb x (List.mem_of_mem_drop hx))]
        exact List.take_append_drop 13 bs

lemma base91_roundtrip (bs : Bytes) (h : ∀ b ∈ bs, b < 256) :
    base91decode (base91encode bs) = bs :=
  base91decode_b91encAux _ _ le_rfl h

/-! ### Characterization of the near-fit search -/

lemma encLen_le_iff_maxFit (m n : Nat) : encLen m ≤ n ↔ m ≤ maxFit n := by
  unfold encLen maxFit
  omega

lemma nearestLoop_eq (data : Bytes) (n : Nat) : ∀ i, nearestLoop data n i =
    if min i data.length ≤ maxFit n
    then (base91encode (data.take i), data.drop i, i)
    else (base91encode (data.take (maxFit n)), data.drop (maxFit n), maxFit n) := by
  intro i
  induction i with
  | zero =>
    rw [if_pos (by simp)]
    simp [nearestLoop]
  | succ i ih =>
    have hcond : ((base91encode (data.take (i + 1))).length ≤ n)
        ↔ (min (i + 1) data.length ≤ maxFit n) := by
      rw [base91encode_length, List.length_take, encLen_le_iff_maxFit]
    by_cases hfit : min (i + 1) data.length ≤ maxFit n
    · rw [nearestLoop, if_pos (hcond.mpr hfit), if_pos hfit]
    · rw [nearestLoop, if_neg (fun h => hfit (hcond.mp h)), if_neg hfit, ih]
      by_cases h2 : min i data.length ≤ maxFit n
      · rw [if_pos h2]
        have : i = maxFit n := by omega
        rw [this]
      · rw [if_neg h2]

/-- The complete behaviour of `_encode_nearest`: it always returns the basE91
encoding of `data.take j`, the suffix `data.drop j` and the count `j`, where
`j` is the starting candidate `⌈n/1.10⌉` when the whole data already fits
there, and the length `maxFit n` of the longest fitting prefix otherwise. -/
lemma encode_nearest_eq (data : Bytes) (n : Nat) :
    _encode_nearest data n =
      if min (nearestStart n) data.length ≤ maxFit n
      then (base91encode (data.take (nearestStart n)), data.drop (nearestStart n), nearestStart n)
      else (base91encode (data.take (maxFit n)), data.drop (maxFit n), maxFit n) :=
  nearestLoop_eq data n (nearestStart n)

lemma encode_nearest_shape (data : Bytes) (n : Nat) :
    ∃ j, _encode_nearest data n = (base91encode (data.take j), data.drop j, j) := by
  rw [encode_nearest_eq]
  by_cases h : min (nearestStart n) data.length ≤ maxFit n
  · rw [if_pos h]; exact ⟨_, rfl⟩
  · rw [if_neg h]; exact ⟨_, rfl⟩

lemma encode_nearest_len_le (data : Bytes) (n : Nat) :
    (_encode_nearest data n).1.length ≤ n := by
  rw [encode_nearest_eq]
  by_cases h : min (nearestStart n) data.length ≤ maxFit n
  · rw [if_pos h]
    simp only [base91encode_length, List.length_take]
    rw [encLen_le_iff_maxFit]
    exact h
  · rw [if_neg h]
    simp only [base91encode_length, List.length_take]
    rw [encLen_le_iff_maxFit]
    exact min_le_left _ _

lemma encode_nearest_zero (data : Bytes) : _encode_nearest data 0 = ([], data, 0) := by
  rw [encode_nearest_eq]
  have h1 : nearestStart 0 = 0 := rfl
  have h2 : maxFit 0 = 0 := rfl
  rw [h1, h2, if_pos (by simp)]
  simp

lemma encode_nearest_62 (data : Bytes) :
    _encode_nearest data 62 =
      if data.length ≤ 50 then (base91encode data, [], 57)
      else (base91encode (data.take 50), data.drop 50, 50) := by
  rw [encode_nearest_eq]
  have h1 : nearestStart 62 = 57 := rfl
  have h2 : maxFit 62 = 50 := rfl
  rw [h1, h2]
  by_cases h : data.length ≤ 50
  · rw [if_pos (by omega), if_pos h, List.take_of_length_le (by omega),
      List.drop_eq_nil_of_le (by omega)]
  · rw [if_neg (by omega), if_neg h]

/-! ### The binary-slot loop -/

@[simp]
lemma decResidual_nil : decResidual [] = [] := rfl

@[simp]
lemma decResidual_cons (s : Slot) (rows : List Slot) :
    decResidual (s :: rows) = (base91decode (s.key.drop 2) ++ s.val) ++ decResidual rows := by
  simp [decResidual]

@[simp]
lemma binaryRows_nil (f i : Nat) : binaryRows f i [] = .ok [] := by
  cases f <;> rfl

lemma encode_index_ok (i : Nat) (h : i ≤ 1295) :
    _encode_index i = .ok [b36chr (i / 36), b36chr (i % 36)] := by
  rw [_encode_index, if_pos h]

lemma binaryRows_spec : ∀ (f i : Nat) (data : Bytes),
    data.length ≤ f → data.length ≤ 114 * (1296 - i) →
    ∃ rows, binaryRows f i data = .ok rows ∧
      rows.length ≤ 1296 - i ∧
      ((∀ b ∈ data, b < 256) → decResidual rows = data) := by
  intro f
  induction f with
  | zero =>
    intro i data hf _
    have : data = [] := List.eq_nil_of_length_eq_zero (Nat.le_zero.mp hf)
    subst this
    exact ⟨[], by simp, by simp, by simp⟩
  | succ f ih =>
    intro i data hf hbound
    by_cases hnil : data = []
    · subst hnil
      exact ⟨[], by simp, by simp, by simp⟩
    · have hpos : 1 ≤ data.length := by
        cases data with
        | nil => exact absurd rfl hnil
        | cons b t => simp
      have hi : i ≤ 1295 := by omega
      rw [binaryRows, if_neg hnil]
      rw [encode_index_ok i hi]
      simp only [Except.bind, bind]
      have hidxlen : ([b36chr (i / 36), b36chr (i % 36)] : Str).length = 2 := rfl
      rw [hidxlen]
      rw [show (64 - 2 : Nat) = 62 from rfl]
      rw [encode_nearest_62 data]
      by_cases h50 : data.length ≤ 50
      · rw [if_pos h50]
        simp only [List.take_nil, List.drop_nil]
        rw [binaryRows_nil]
        refine ⟨[⟨[b36chr (i / 36), b36chr (i % 36)] ++ base91encode data, []⟩], rfl, by simp; omega, ?_⟩
        intro hb
        simp [base91_roundtrip data hb]
      · rw [if_neg h50]
        simp only []
        have hdrop : ((data.drop 50).drop 64) = data.drop 114 := by
          rw [List.drop_drop]
        rw [hdrop]
        have h1 : (data.drop 114).length ≤ f := by
          simp only [List.length_drop]; omega
        have h2 : (data.drop 114).length ≤ 114 * (1296 - (i + 1)) := by
          simp only [List.length_drop]; omega
        obtain ⟨rest, hrest, hrlen, hrres⟩ := ih (i + 1) (data.drop 114) h1 h2
        rw [hrest]
        refine ⟨_, rfl, ?_, ?_⟩
        · simp only [List.length_cons]
          omega
        · intro hb
          rw [decResidual_cons]
          simp only []
          rw [List.drop_left' hidxlen]
          rw [base91_roundtrip _ (fun x hx => hb x (List.mem_of_mem_take hx))]
          rw [hrres (fun x hx => hb x (List.mem_of_mem_drop hx))]
          rw [List.append_assoc, ← hdrop]
          rw [List.take_append_drop, List.take_append_drop]

lemma binaryRows_bounds : ∀ (f i : Nat) (data : Bytes) (rows : List Slot),
    binaryRows f i data = .ok rows → ∀ s ∈ rows, s.key.length ≤ 64 ∧ s.val.length ≤ 64 := by
  intro f
  induction f with
  | zero =>
    intro i data rows h s hs
    by_cases hnil : data = []
    · subst hnil
      simp at h
      subst h
      simp at hs
    · rw [binaryRows, if_neg hnil] at h
      cases h
  | succ f ih =>
    intro i data rows h s hs
    by_cases hnil : data = []
    · subst hnil
      simp at h
      subst h
      simp at hs
    · rw [binaryRows, if_neg hnil] at h
      rcases hidx : _encode_index i with e | idx
      · rw [hidx] at h
        cases h
      · rw [hidx] at h
        simp only [Except.bind, bind] at h
        rcases hrec : binaryRows f (i + 1) ((_encode_nearest data (64 - idx.length)).2.1.drop 64)
          with e | rest
        · rw [hrec] at h
          cases h
        · rw [hrec] at h
          simp only [Except.ok.injEq] at h
          subst h
          have hidxlen : idx.length = 2 := by
            rw [_encode_index] at hidx
            by_cases hi : i ≤ 1295
            · rw [if_pos hi] at hidx
              cases hidx
              rfl
            · rw [if_neg hi] at hidx
              cases hidx
          rcases List.mem_cons.mp hs with hs1 | hs1
          · subst hs1
            constructor
            · simp only [List.length_append, hidxlen, List.length_take]
              have := encode_nearest_len_le data (64 - idx.length)
              rw [hidxlen] at this
              omega
            · simp only [List.length_take]
              omega
          · exact ih _ _ _ hrec s hs1

/-! ### Decimal rendering and parsing -/

lemma decDigitsRev_ofRev : ∀ (f n : Nat), n ≤ f → ofDigitsRev (decDigitsRev f n) = n := by
  intro f
  induction f with
  | zero =>
    intro n hf
    have : n = 0 := by omega
    subst this
    rfl
  | succ f ih =>
    intro n hf
    rw [decDigitsRev]
    by_cases h0 : n = 0
    · rw [if_pos h0, h0]; rfl
    · rw [if_neg h0, ofDigitsRev, ih (n / 10) (by omega)]
      omega

lemma decDigitsRev_lt10 : ∀ (f n d : Nat), d ∈ decDigitsRev f n → d < 10 := by
  intro f
  induction f with
  | zero => intro n d h; simp [decDigitsRev] at h
  | succ f ih =>
    intro n d h
    rw [decDigitsRev] at h
    by_cases h0 : n = 0
    · rw [if_pos h0] at h; simp at h
    · rw [if_neg h0] at h
      rcases List.mem_cons.mp h with h1 | h1
      · omega
      · exact ih _ _ h1

lemma decDigitsRev_length : ∀ (k f n : Nat), n ≤ f → n < 10 ^ k →
    (decDigitsRev f n).length ≤ k := by
  intro k
  induction k with
  | zero =>
    intro f n hf hk
    have : n = 0 := by simpa using hk
    subst this
    cases f with
    | zero => simp [decDigitsRev]
    | succ f => simp [decDigitsRev]
  | succ k ih =>
    intro f n hf hk
    cases f with
    | zero =>
      have : n = 0 := by omega
      subst this
      simp [decDigitsRev]
    | succ f =>
      rw [decDigitsRev]
      by_cases h0 : n = 0
      · rw [if_pos h0]; simp
      · rw [if_neg h0]
        simp only [List.length_cons]
        have hdivf : n / 10 ≤ f := by omega
        have hdivk : n / 10 < 10 ^ k := by
          rw [Nat.div_lt_iff_lt_mul (by norm_num)]
          calc n < 10 ^ (k + 1) := hk
            _ = 10 ^ k * 10 := by ring
        have := ih f (n / 10) hdivf hdivk
        omega

@[simp]
lemma decDigitsRev_zero (f : Nat) : decDigitsRev f 0 = [] := by
  cases f <;> simp [decDigitsRev]

lemma decDigitsRev_msd : ∀ (f n : Nat), 1 ≤ n → n ≤ f →
    ∃ ds d, decDigitsRev f n = ds ++ [d] ∧ 1 ≤ d ∧ d < 10 := by
  intro f
  induction f with
  | zero => intro n h1 hf; omega
  | succ f ih =>
    intro n h1 hf
    rw [decDigitsRev, if_neg (by omega)]
    by_cases hd : n / 10 = 0
    · refine ⟨[], n % 10, ?_, by omega, by omega⟩
      rw [hd, decDigitsRev_zero]
      simp
    · obtain ⟨ds, d, heq, hd1, hd10⟩ := ih (n / 10) (by omega) (by omega)
      exact ⟨n % 10 :: ds, d, by rw [heq]; rfl, hd1, hd10⟩

lemma natToDecStr_digits (n : Nat) : ∀ c ∈ natToDecStr n, 48 ≤ c ∧ c ≤ 57 := by
  intro c hc
  rw [natToDecStr] at hc
  by_cases h0 : n = 0
  · rw [if_pos h0] at hc
    simp at hc
    omega
  · rw [if_neg h0] at hc
    simp only [List.mem_map, List.mem_reverse] at hc
    obtain ⟨d, hd, rfl⟩ := hc
    have := decDigitsRev_lt10 n n d hd
    omega

lemma natToDecStr_length_pos (n : Nat) : 1 ≤ (natToDecStr n).length := by
  rw [natToDecStr]
  by_cases h0 : n = 0
  · rw [if_pos h0]; simp
  · rw [if_neg h0]
    simp only [List.length_map, List.length_reverse]
    cases hn : decDigitsRev n n with
    | nil =>
      exfalso
      have := decDigitsRev_ofRev n n le_rfl
      rw [hn] at this
      simp [ofDigitsRev] at this
      omega
    | cons d ds => simp

lemma natToDecStr_length_le (k n : Nat) (hk : 1 ≤ k) (hn : n < 10 ^ k) :
    (natToDecStr n).length ≤ k := by
  rw [natToDecStr]
  by_cases h0 : n = 0
  · rw [if_pos h0]; simpa using hk
  · rw [if_neg h0]
    simp only [List.length_map, List.length_reverse]
    exact decDigitsRev_length k n n le_rfl hn

lemma natToDecStr_head (n : Nat) (h1 : 1 ≤ n) :
    ∃ d rest, natToDecStr n = (48 + d) :: rest ∧ 1 ≤ d ∧ d < 10 := by
  obtain ⟨ds, d, heq, hd1, hd10⟩ := decDigitsRev_msd n n h1 le_rfl
  refine ⟨d, ds.reverse.map (fun x => x + 48), ?_, hd1, hd10⟩
  rw [natToDecStr, if_neg (by omega), heq]
  simp [Nat.add_comm]

lemma decStrToNat_rev_digits : ∀ ds : List Nat,
    decStrToNat (ds.reverse.map (fun d => d + 48)) = ofDigitsRev ds := by
  intro ds
  induction ds with
  | nil => rfl
  | cons d ds ih =>
    rw [ofDigitsRev, ← ih]
    unfold decStrToNat
    simp only [List.reverse_cons, List.map_append, List.map_cons, List.map_nil,
      List.foldl_append, List.foldl_cons, List.foldl_nil]
    omega

lemma decStrToNat_natToDecStr (n : Nat) : decStrToNat (natToDecStr n) = n := by
  rw [natToDecStr]
  by_cases h0 : n = 0
  · rw [if_pos h0, h0]; rfl
  · rw [if_neg h0, decStrToNat_rev_digits, decDigitsRev_ofRev n n le_rfl]

/-! ### The header loop -/

lemma strToAscii_ok (s : Str) (h : ∀ c ∈ s, c < 128) : strToAscii s = .ok s := by
  rw [strToAscii, if_pos]
  rw [List.all_eq_true]
  intro c hc
  exact decide_eq_true (h c hc)

lemma bytesToAscii_ok (b : Bytes) (h : ∀ c ∈ b, c < 128) : bytesToAscii b = .ok b := by
  rw [bytesToAscii, if_pos]
  rw [List.all_eq_true]
  intro c hc
  exact decide_eq_true (h c hc)

lemma headerRows_single (header : Str) (h2 : 2 ≤ header.length) (h126 : header.length ≤ 126)
    (hascii : ∀ c ∈ header, c < 128) :
    headerRows header header.length 0 =
      .ok [⟨[48, 48] ++ header.take 62, (header.drop 62).take 64⟩] := by
  obtain ⟨k, hk⟩ : ∃ k, header.length = k + 2 := ⟨header.length - 2, by omega⟩
  rw [hk]
  rw [headerRows, if_pos (by omega)]
  have hidx : _encode_index 0 = .ok [48, 48] := rfl
  rw [hidx]
  have hasc : strToAscii ((header.drop (0 + 62)).take 64) = .ok ((header.drop (0 + 62)).take 64) :=
    strToAscii_ok _ (fun c hc => hascii c (List.mem_of_mem_drop (List.mem_of_mem_take hc)))
  rw [hasc]
  rw [headerRows, if_neg (by omega)]
  simp only [Except.bind, bind, List.drop_zero, Nat.zero_add]

lemma headerRows_bounds : ∀ (f i : Nat) (header : Str) (rows : List Slot),
    headerRows header f i = .ok rows → ∀ s ∈ rows, s.key.length ≤ 64 ∧ s.val.length ≤ 64 := by
  intro f
  induction f with
  | zero =>
    intro i header rows h s hs
    simp only [headerRows, Except.ok.injEq] at h
    subst h
    simp at hs
  | succ f ih =>
    intro i header rows h s hs
    rw [headerRows] at h
    by_cases hlt : i < header.length
    · rw [if_pos hlt] at h
      rcases hidx : _encode_index i with e | idx
      · rw [hidx] at h; cases h
      · rw [hidx] at h
        simp only [Except.bind, bind] at h
        rcases hasc : strToAscii ((header.drop (i + 62)).take 64) with e | v
        · rw [hasc] at h; cases h
        · rw [hasc] at h
          rcases hrec : headerRows header f (i + 126) with e | rest
          · rw [hrec] at h; cases h
          · rw [hrec] at h
            simp only [Except.ok.injEq] at h
            subst h
            have hidxlen : idx.length = 2 := by
              rw [_encode_index] at hidx
              by_cases hi : i ≤ 1295
              · rw [if_pos hi] at hidx; cases hidx; rfl
              · rw [if_neg hi] at hidx; cases hidx
            have hvlen : v.length ≤ 64 := by
              rw [strToAscii] at hasc
              by_cases hcond : ((header.drop (i + 62)).take 64).all (fun c => decide (c < 128))
              · rw [if_pos hcond] at hasc
                cases hasc
                simp only [List.length_take]
                omega
              · rw [if_neg hcond] at hasc; cases hasc
            rcases List.mem_cons.mp hs with hs1 | hs1
            · subst hs1
              refine ⟨?_, hvlen⟩
              simp only [List.length_append, hidxlen, List.length_take]
              omega
            · exact ih _ _ _ hrec s hs1
    · rw [if_neg hlt] at h
      simp only [Except.ok.injEq] at h
      subst h
      simp at hs

lemma headerRows_ok : ∀ (f i : Nat) (header : Str),
    header.length ≤ i + f → header.length ≤ 1386 → 126 ∣ i → i ≤ header.length + 125 →
    (∀ c ∈ header, c < 128) →
    ∃ rows, headerRows header f i = .ok rows ∧
      126 * rows.length + i ≤ header.length + 125 ∧
      (i < header.length → 1 ≤ rows.length) := by
  intro f
  induction f with
  | zero =>
    intro i header hfuel h1386 hdvd hinv hascii
    refine ⟨[], by simp [headerRows], by simpa using hinv, ?_⟩
    intro h
    omega
  | succ f ih =>
    intro i header hfuel h1386 hdvd hinv hascii
    rw [headerRows]
    by_cases hlt : i < header.length
    · rw [if_pos hlt]
      have hi : i ≤ 1295 := by omega
      rw [encode_index_ok i hi]
      rw [strToAscii_ok _ (fun c hc => hascii c (List.mem_of_mem_drop (List.mem_of_mem_take hc)))]
      obtain ⟨rest, hrest, hcount, _⟩ := ih (i + 126) header (by omega) h1386 (by omega)
        (by omega) hascii
      rw [hrest]
      simp only [Except.bind, bind]
      refine ⟨_, rfl, ?_, ?_⟩
      · simp only [List.length_cons]
        omega
      · intro _
        simp
    · rw [if_neg hlt]
      refine ⟨[], rfl, by simpa using hinv, fun h => absurd h hlt⟩

/-! ### The length-field parse loop -/

lemma lenLoop_run : ∀ (ds pre suf : Str) (c : Nat) (r : Nat) (acc : Str),
    (∀ x ∈ ds, 48 ≤ x ∧ x ≤ 57) → ¬(48 ≤ c ∧ c ≤ 57) → ds.length + 1 ≤ r → 4 ≤ pre.length →
    lenLoop (pre ++ (ds ++ c :: suf)) pre.length r acc = .ok (pre.length + ds.length, acc ++ ds) := by
  intro ds
  induction ds with
  | nil =>
    intro pre suf c r acc _ hc hr hpre
    match r with
    | r + 1 =>
      rw [lenLoop]
      have hget : (pre ++ ([] ++ c :: suf)).get? pre.length = some c := by
        rw [List.get?_append_right le_rfl]
        simp
      rw [hget]
      dsimp only
      rw [if_pos hc]
      simp
  | cons d ds ih =>
    intro pre suf c r acc hds hc hr hpre
    match r with
    | r + 1 =>
      rw [lenLoop]
      have hd : 48 ≤ d ∧ d ≤ 57 := hds d (by simp)
      have hget : (pre ++ ((d :: ds) ++ c :: suf)).get? pre.length = some d := by
        rw [List.get?_append_right le_rfl]
        simp
      rw [hget]
      dsimp only
      rw [if_neg (by omega)]
      rw [if_neg (by omega)]
      have hkey : pre ++ ((d :: ds) ++ c :: suf) = (pre ++ [d]) ++ (ds ++ c :: suf) := by
        simp
      have hlen : pre.length + 1 = (pre ++ [d]).length := by simp
      rw [hkey, hlen]
      rw [ih (pre ++ [d]) suf c r (acc ++ [d]) (fun x hx => hds x (by simp [hx]))
        hc (by simpa using hr) (by simp; omega)]
      simp only [List.length_append, List.length_cons, List.length_nil, List.append_assoc,
        List.singleton_append, List.length_singleton, Except.ok.injEq, Prod.mk.injEq]
      exact ⟨by omega, trivial⟩

lemma lenLoop_zeroCase (tail : Str) :
    lenLoop ([48, 48, 49, 48] ++ tail) 3 7 [] = .ok (3, [48]) := by
  rw [lenLoop]
  have hget : (([48, 48, 49, 48] : Str) ++ tail).get? 3 = some 48 := by
    rw [List.get?_append (by simp)]
    rfl
  rw [hget]
  dsimp only
  rw [if_neg (by omega)]
  rw [if_pos (by omega)]
  simp

lemma lenLoop_decimal (ℓ : Nat) (h1 : 1 ≤ ℓ) (hcap : ℓ < 1000000) (m0 : Nat)
    (hm0 : ¬(48 ≤ m0 ∧ m0 ≤ 57)) (rest : Str) :
    lenLoop ([48, 48, 49] ++ (natToDecStr ℓ ++ m0 :: rest)) 3 7 [] =
      .ok (3 + (natToDecStr ℓ).length, natToDecStr ℓ) := by
  obtain ⟨d, S₂, hS, hd1, hd10⟩ := natToDecStr_head ℓ h1
  have hS6 : (natToDecStr ℓ).length ≤ 6 := natToDecStr_length_le 6 ℓ (by omega) (by norm_num; omega)
  rw [hS]
  rw [lenLoop]
  have hget : (([48, 48, 49] : Str) ++ ((48 + d) :: S₂ ++ m0 :: rest)).get? 3 = some (48 + d) := rfl
  rw [hget]
  dsimp only
  rw [if_neg (by omega)]
  rw [if_neg (by omega)]
  have hkey : ([48, 48, 49] : Str) ++ ((48 + d) :: S₂ ++ m0 :: rest)
      = ([48, 48, 49, 48 + d] : Str) ++ (S₂ ++ m0 :: rest) := by
    simp
  rw [hkey]
  have h4 : (3 + 1 : Nat) = ([48, 48, 49, 48 + d] : Str).length := by simp
  rw [h4]
  have hS₂dig : ∀ x ∈ S₂, 48 ≤ x ∧ x ≤ 57 := by
    intro x hx
    exact natToDecStr_digits ℓ x (by rw [hS]; simp [hx])
  have hS₂len : S₂.length + 1 ≤ 6 := by
    have : (natToDecStr ℓ).length = S₂.length + 1 := by rw [hS]; simp
    omega
  rw [lenLoop_run S₂ _ rest m0 6 _ hS₂dig hm0 hS₂len (by simp)]
  simp only [List.length_cons, List.nil_append, List.singleton_append, Except.ok.injEq,
    Prod.mk.injEq]
  refine ⟨?_, trivial⟩
  simp
  omega

/-! ### Metadata parsing inverts rendering -/

lemma splitOn_single (x : Nat) (l : Str) (h : x ∉ l) : l.splitOn x = [l] := by
  apply List.splitOnP_eq_single
  intro y hy
  simp only [beq_iff_eq]
  intro h'
  subst h'
  exact h hy

lemma intercalate_cons₂ (s a b : Str) (t : List Str) :
    List.intercalate s (a :: b :: t) = a ++ s ++ List.intercalate s (b :: t) := by
  simp [List.intercalate, List.intersperse_cons_cons]

lemma intercalate_pair (s a b : Str) : List.intercalate s [a, b] = a ++ s ++ b := by
  simp [List.intercalate, List.intersperse_cons_cons]

lemma parseParam_pair (k v : Str) (hk : 61 ∉ k) (hv : 61 ∉ v) :
    parseParam (k ++ [61] ++ v) = .ok (k, v) := by
  rw [parseParam]
  have hmem : ∀ l ∈ [k, v], 61 ∉ l := by
    intro l hl
    rcases List.mem_cons.mp hl with h | h
    · subst h; exact hk
    · simp at h; subst h; exact hv
  have hsp := List.splitOn_intercalate [k, v] 61 hmem (by simp)
  rw [intercalate_pair] at hsp
  rw [hsp]

lemma parseParams_map (ps : List (Str × Str))
    (hps : ∀ kv ∈ ps, 61 ∉ kv.1 ∧ 61 ∉ kv.2) :
    (ps.map (fun kv => kv.1 ++ [61] ++ kv.2)).mapM parseParam = .ok ps := by
  induction ps with
  | nil => rfl
  | cons kv ps ih =>
    simp only [List.map_cons, List.mapM_cons]
    rw [parseParam_pair kv.1 kv.2 (hps kv (by simp)).1 (hps kv (by simp)).2]
    rw [ih (fun x hx => hps x (by simp [hx]))]
    rfl

lemma dictInsert_notMem (acc : List (Str × Str)) (kv : Str × Str)
    (h : kv.1 ∉ acc.map Prod.fst) : dictInsert acc kv = acc ++ [kv] := by
  rw [dictInsert, if_neg]
  simp only [List.any_eq_true, not_exists, not_and]
  intro x hx
  simp only [beq_iff_eq]
  intro h'
  exact absurd (h' ▸ (List.mem_map_of_mem Prod.fst hx)) h

lemma pyDict_go : ∀ (ps acc : List (Str × Str)), (ps.map Prod.fst).Nodup →
    (∀ x ∈ ps.map Prod.fst, x ∉ acc.map Prod.fst) →
    List.foldl dictInsert acc ps = acc ++ ps := by
  intro ps
  induction ps with
  | nil => intro acc _ _; simp
  | cons kv ps ih =>
    intro acc hnd hdisj
    rw [List.foldl_cons, dictInsert_notMem acc kv (hdisj kv.1 (by simp))]
    rw [ih (acc ++ [kv]) (by simp at hnd; exact hnd.2)]
    · simp
    · intro x hx
      simp only [List.map_append, List.mem_append, List.map_cons, List.map_nil]
      rintro (h | h)
      · exact hdisj x (by simp [hx]) h
      · simp at h
        simp only [List.map_cons, List.nodup_cons] at hnd
        exact hnd.1 (h ▸ hx)

lemma pyDict_nodup (ps : List (Str × Str)) (hnd : (ps.map Prod.fst).Nodup) :
    pyDict ps = ps := by
  rw [pyDict, pyDict_go ps [] hnd (by simp)]
  simp

lemma mem_intercalate (s : Str) (ls : List Str) (c : Nat) (hc : c ∈ List.intercalate s ls) :
    c ∈ s ∨ ∃ l ∈ ls, c ∈ l := by
  induction ls with
  | nil => simp [List.intercalate] at hc
  | cons a t ih =>
    cases t with
    | nil =>
      simp only [List.intercalate, List.intersperse_singleton, List.flatten_cons,
        List.flatten_nil, List.append_nil] at hc
      exact Or.inr ⟨a, by simp, hc⟩
    | cons b t2 =>
      rw [intercalate_cons₂] at hc
      simp only [List.append_assoc, List.mem_append] at hc
      rcases hc with h | h | h
      · exact Or.inr ⟨a, by simp, h⟩
      · exact Or.inl h
      · rcases ih h with h2 | ⟨l, hl, hcl⟩
        · exact Or.inl h2
        · exact Or.inr ⟨l, by simp at hl ⊢; tauto, hcl⟩

lemma render_media_type_mem (mt : Str) (ps : List (Str × Str)) (c : Nat)
    (hc : c ∈ render_media_type mt ps) :
    c ∈ mt ∨ c = 59 ∨ c = 61 ∨ ∃ kv ∈ ps, c ∈ kv.1 ∨ c ∈ kv.2 := by
  rw [render_media_type] at hc
  simp only [List.append_assoc, List.mem_append] at hc
  rcases hc with h | h | h
  · exact Or.inl h
  · by_cases hps : ps = []
    · rw [if_pos hps] at h; simp at h
    · rw [if_neg hps] at h
      simp at h
      omega
  · rcases mem_intercalate _ _ _ h with h2 | ⟨l, hl, hcl⟩
    · simp at h2
      omega
    · simp only [List.mem_map] at hl
      obtain ⟨kv, hkv, rfl⟩ := hl
      simp only [List.append_assoc, List.mem_append, List.mem_singleton] at hcl
      rcases hcl with h3 | h3 | h3
      · exact Or.inr (Or.inr (Or.inr ⟨kv, hkv, Or.inl h3⟩))
      · omega
      · exact Or.inr (Or.inr (Or.inr ⟨kv, hkv, Or.inr h3⟩))

lemma render_media_type_nil (mt : Str) : render_media_type mt [] = mt := by
  simp [render_media_type, List.intercalate]

lemma parseMedia_render (mt : Str) (ps : List (Str × Str))
    (hmt : 59 ∉ mt)
    (hps : ∀ kv ∈ ps, (59 ∉ kv.1 ∧ 61 ∉ kv.1) ∧ (59 ∉ kv.2 ∧ 61 ∉ kv.2))
    (hnd : (ps.map Prod.fst).Nodup) :
    parseMedia (render_media_type mt ps) = .ok ⟨mt, ps⟩ := by
  by_cases hempty : ps = []
  · subst hempty
    rw [render_media_type_nil, parseMedia]
    rw [splitOn_single 59 mt hmt]
    rfl
  · rw [parseMedia]
    have hform : render_media_type mt ps
        = List.intercalate [59] (mt :: ps.map (fun kv => kv.1 ++ [61] ++ kv.2)) := by
      rw [render_media_type, if_neg hempty]
      match ps, hempty with
      | kv :: ps2, _ =>
        simp only [List.map_cons]
        rw [intercalate_cons₂]
    have hsplit : (render_media_type mt ps).splitOn 59
        = mt :: ps.map (fun kv => kv.1 ++ [61] ++ kv.2) := by
      rw [hform]
      apply List.splitOn_intercalate
      · intro l hl
        rcases List.mem_cons.mp hl with h | h
        · subst h; exact hmt
        · simp only [List.mem_map] at h
          obtain ⟨kv, hkv, rfl⟩ := h
          simp only [List.append_assoc, List.mem_append, List.mem_singleton]
          push_neg
          exact ⟨(hps kv hkv).1.1, by omega, (hps kv hkv).2.1⟩
      · simp
    rw [hsplit]
    simp only [List.drop_succ_cons, List.drop_zero, List.head?_cons]
    rw [parseParams_map ps (fun kv hkv => ⟨(hps kv hkv).1.2, (hps kv hkv).2.2⟩)]
    simp only [Except.bind, bind]
    rw [pyDict_nodup ps hnd]

lemma parseMeta_single (mt : Str) (ps : List (Str × Str))
    (hmt : 44 ∉ mt ∧ 59 ∉ mt)
    (hps : ∀ kv ∈ ps, (44 ∉ kv.1 ∧ 59 ∉ kv.1 ∧ 61 ∉ kv.1) ∧ (44 ∉ kv.2 ∧ 59 ∉ kv.2 ∧ 61 ∉ kv.2))
    (hnd : (ps.map Prod.fst).Nodup) :
    parseMeta (render_media_type mt ps) = .ok [⟨mt, ps⟩] := by
  rw [parseMeta]
  have h44 : 44 ∉ render_media_type mt ps := by
    intro hc
    rcases render_media_type_mem mt ps 44 hc with h | h | h | ⟨kv, hkv, h | h⟩
    · exact hmt.1 h
    · omega
    · omega
    · exact (hps kv hkv).1.1 h
    · exact (hps kv hkv).2.1 h
  rw [splitOn_single 44 _ h44]
  simp only [List.mapM_cons, List.mapM_nil]
  rw [parseMedia_render mt ps hmt.2
    (fun kv hkv => ⟨⟨(hps kv hkv).1.2.1, (hps kv hkv).1.2.2⟩, ⟨(hps kv hkv).2.2.1, (hps kv hkv).2.2.2⟩⟩) hnd]
  rfl

lemma parseMeta_nil : parseMeta [] = .ok [⟨[], []⟩] := rfl

/-! ### The attachment-splitting phase -/

lemma splitBins_single (dsc : MediaDescriptor) (binary : Bytes)
    (hs : lookupParam dsc.params [115] = none) (hc : lookupParam dsc.params [99] = none) :
    splitBins [dsc] binary = .ok [binary] := by
  rw [splitBins, hs, hc]
  dsimp only
  simp only [Except.bind, bind, List.take_length]
  rfl

lemma splitBins_total : ∀ (mts : List MediaDescriptor) (binary : Bytes),
    (∀ dsc ∈ mts, lookupParam dsc.params [99] = none ∧
      (∀ v, lookupParam dsc.params [115] = some v →
        v ≠ [] ∧ ∀ c ∈ v, 48 ≤ c ∧ c ≤ 57)) →
    ∃ bs, splitBins mts binary = .ok bs ∧ bs.length = mts.length := by
  intro mts
  induction mts with
  | nil => intro binary _; exact ⟨[], rfl, rfl⟩
  | cons dsc mts ih =>
    intro binary hmts
    rcases hs : lookupParam dsc.params [115] with _ | v
    · rw [splitBins, hs, (hmts dsc (by simp)).1]
      dsimp only
      obtain ⟨bs, hbs, hlen⟩ := ih (binary.drop binary.length)
        (fun x hx => hmts x (by simp [hx]))
      simp only [Except.bind, bind]
      rw [hbs]
      exact ⟨_, rfl, by simp [hlen]⟩
    · have hv := ((hmts dsc (by simp)).2 v hs)
      have hpyInt : pyInt v = .ok (decStrToNat v) := by
        rw [pyInt, if_pos]
        refine ⟨hv.1, ?_⟩
        rw [List.all_eq_true]
        intro c hcmem
        exact decide_eq_true (hv.2 c hcmem)
      rw [splitBins, hs, (hmts dsc (by simp)).1]
      dsimp only
      rw [hpyInt]
      simp only [Except.bind, bind]
      obtain ⟨bs, hbs, hlen⟩ := ih (binary.drop (decStrToNat v))
        (fun x hx => hmts x (by simp [hx]))
      rw [hbs]
      exact ⟨_, rfl, by simp [hlen]⟩

/-! ### The central round trip: encoding then stream-decoding -/

/-- When the frame header (version digit, decimal length, metadata) fits
within the first slot key and value (at most 125 characters) and the
metadata does not start with a decimal digit, `encodeCore` succeeds and
`decodeStream` recovers exactly the metadata string and the payload. -/
theorem encodeCore_decodeStream (M : Str) (d : Bytes)
    (hM : ∀ c ∈ M, c < 128)
    (hd : ∀ b ∈ d, b < 256)
    (hdig : ∀ c, M.head? = some c → ¬(48 ≤ c ∧ c ≤ 57))
    (hsz : 1 + (natToDecStr M.length).length + M.length ≤ 125)
    (hdlen : d.length < 126000) :
    ∃ rows, encodeCore M d = .ok rows ∧ decodeStream rows = .ok (M, d) ∧
      ∃ k2 v2 tl,
        rows = ⟨[48, 48] ++ ([49] ++ natToDecStr M.length ++ M).take 62 ++ k2, v2⟩ :: tl := by
  have hL1 : 1 ≤ (natToDecStr M.length).length := natToDecStr_length_pos _
  have hSdig : ∀ c ∈ natToDecStr M.length, 48 ≤ c ∧ c ≤ 57 := natToDecStr_digits _
  set S := natToDecStr M.length with hSdef
  set H : Str := [49] ++ natToDecStr M.length ++ M with hHdef
  have hhlen : H.length = 1 + S.length + M.length := by
    rw [hHdef, hSdef]
    simp
    omega
  have hh2 : 2 ≤ H.length := by omega
  have hh126 : H.length ≤ 126 := by omega
  have hhascii : ∀ c ∈ H, c < 128 := by
    intro c hc
    rw [hHdef] at hc
    simp only [List.append_assoc, List.mem_append, List.mem_singleton] at hc
    rcases hc with h | h | h
    · omega
    · have := hSdig c h; omega
    · exact hM c h
  rw [encodeCore]
  rw [show ([49] ++ natToDecStr M.length ++ M : Str) = H from rfl]
  rw [headerRows_single H hh2 hh126 hhascii]
  simp only [Except.bind, bind, List.getLast?_singleton, List.dropLast_single]
  by_cases hcase : H.length ≤ 62
  · -- Case A: the whole header fits in the first key
    have htake : H.take 62 = H := List.take_of_length_le hcase
    have hdropnil : H.drop 62 = [] := List.drop_eq_nil_of_le hcase
    simp only [htake, hdropnil, List.take_nil, List.length_nil, Nat.sub_zero]
    have hb : 64 - ([48, 48] ++ H : Str).length = 62 - H.length := by
      simp
    rw [hb]
    obtain ⟨j, hj⟩ := encode_nearest_shape d (62 - H.length)
    rw [hj]
    simp only []
    obtain ⟨rest, hrest, hrlen, hres⟩ := binaryRows_spec ((d.drop j).drop 64).length 1
      ((d.drop j).drop 64) le_rfl (by simp only [List.length_drop]; omega)
    rw [show ([{ key := [48, 48] ++ H, val := ([] : Bytes) }] : List Slot).length = 1 from rfl]
    rw [hrest]
    simp only [List.nil_append, List.singleton_append]
    refine ⟨_, rfl, ?_, ⟨base91encode (List.take j d), List.take 64 (List.drop j d), rest, by simp [htake]⟩⟩
    -- decode side, case A
    have henc : base91decode (base91encode (List.take j d)) = List.take j d :=
      base91_roundtrip _ (fun x hx => hd x (List.mem_of_mem_take hx))
    rw [decodeStream]
    simp only [List.head?_cons, Except.bind, bind]
    set enc := base91encode (List.take j d) with hencdef
    have hkey1 : ([48, 48] ++ H ++ enc : Str) = [48, 48, 49] ++ (S ++ (M ++ enc)) := by
      rw [hHdef, hSdef]
      simp
    rw [hkey1]
    set K : Str := [48, 48, 49] ++ (S ++ (M ++ enc)) with hKdef
    have hF1 : K.take 3 = [48, 48, 49] := by rw [hKdef]; rfl
    rw [if_neg (by rw [hF1]; simp)]
    have hKalt : ([48, 48] ++ H) ++ enc = K := by rw [hKdef, hHdef, hSdef]; simp
    have hF4 : K.drop (2 + H.length) = enc := by
      rw [← hKalt]
      exact List.drop_left' (by simp; omega)
    have hKalt2 : ([48, 48, 49] ++ S) ++ (M ++ enc) = K := by rw [hKdef]; simp
    have hF3 : (K.drop (3 + S.length)).take M.length = M := by
      rw [← hKalt2]
      rw [List.drop_left' (by simp; omega)]
      exact List.take_left' rfl
    by_cases hM0 : M.length = 0
    · -- empty metadata
      have hMnil : M = [] := List.eq_nil_of_length_eq_zero hM0
      have hS0 : S = [48] := by rw [hSdef, hMnil]; rfl
      have hKz : K = [48, 48, 49, 48] ++ enc := by
        rw [hKdef, hS0, hMnil]
        simp
      have hF2z : lenLoop K 3 7 [] = .ok (3, [48]) := by
        rw [hKz]
        exact lenLoop_zeroCase enc
      rw [hF2z]
      simp only []
      rw [if_neg (by simp)]
      rw [show decStrToNat [48] = 0 from rfl]
      rw [if_neg (by omega)]
      simp only [List.length_nil, Nat.zero_sub, Nat.sub_zero, List.take_zero, List.nil_append]
      rw [show bytesToAscii ([] : Bytes) = .ok [] from rfl]
      simp only [List.nil_append, List.length_nil, Nat.zero_sub]
      rw [if_neg (by omega)]
      simp only []
      rw [if_neg (by simp)]
      rw [show (1 + (natToDecStr 0).length + 0) / 126 = 0 from rfl]
      rw [show (1 + (natToDecStr 0).length + 0) % 126 = 2 from rfl]
      simp only [List.get?_cons_zero]
      have hF4z : K.drop (2 + 2) = enc := by
        rw [hKz]
        exact List.drop_left' rfl
      rw [hF4z, henc]
      rw [show (2 - 62 : Nat) = 0 from rfl, List.drop_zero]
      simp only [List.drop_succ_cons, List.drop_zero]
      rw [hres (fun x hx => hd x (List.mem_of_mem_drop (List.mem_of_mem_drop hx)))]
      rw [List.append_assoc, List.take_append_drop, List.take_append_drop, hMnil]
    · -- nonempty metadata
      obtain ⟨m0, M', hMcons⟩ : ∃ a l, M = a :: l := by
        cases M with
        | nil => simp at hM0
        | cons a l => exact ⟨a, l, rfl⟩
      have hKform : K = [48, 48, 49] ++ (natToDecStr M.length ++ (m0 :: (M' ++ enc))) := by
        rw [hKdef, hSdef]
        congr 1
        congr 1
        rw [hMcons]
        simp
      have hF2 : lenLoop K 3 7 [] = .ok (3 + S.length, S) := by
        rw [hKform]
        rw [lenLoop_decimal M.length (by omega) (by omega) m0
          (hdig m0 (by rw [hMcons]; rfl)) (M' ++ enc)]
      rw [hF2]
      simp only []
      have hSne : ¬(S = []) := by
        intro h
        rw [h] at hL1
        simp at hL1
      rw [if_neg hSne]
      have hml : decStrToNat S = M.length := by rw [hSdef]; exact decStrToNat_natToDecStr _
      rw [hml]
      rw [if_neg (by omega)]
      rw [hF3]
      simp only [Nat.sub_self, List.take_zero]
      rw [show bytesToAscii ([] : Bytes) = .ok [] from rfl]
      simp only [List.append_nil]
      rw [if_neg (by omega)]
      simp only []
      rw [if_neg (by simp)]
      have hdiv : (1 + (natToDecStr M.length).length + M.length) / 126 = 0 :=
        Nat.div_eq_of_lt (by rw [← hSdef]; omega)
      have hmod : (1 + (natToDecStr M.length).length + M.length) % 126 = H.length := by
        rw [← hSdef]
        omega
      rw [hdiv, hmod]
      simp only [List.get?_cons_zero]
      rw [hF4, henc]
      rw [show List.length H - 62 = 0 from by omega, List.drop_zero]
      simp only [List.drop_succ_cons, List.drop_zero]
      rw [hres (fun x hx => hd x (List.mem_of_mem_drop (List.mem_of_mem_drop hx)))]
      rw [List.append_assoc, List.take_append_drop, List.take_append_drop]
  · -- Case B: the header spills into the first slot value
    have hL6 : S.length ≤ 6 := by
      rw [hSdef]
      refine natToDecStr_length_le 6 M.length (by omega) ?_
      have h6 : (10 : Nat) ^ 6 = 1000000 := by norm_num
      omega
    have hMpos : 1 ≤ M.length := by omega
    have hvtake : (H.drop 62).take 64 = H.drop 62 :=
      List.take_of_length_le (by simp only [List.length_drop]; omega)
    have hb0 : 64 - ([48, 48] ++ H.take 62 : Str).length = 0 := by
      simp only [List.length_append, List.length_take, List.length_cons, List.length_nil]
      omega
    rw [hvtake, hb0, encode_nearest_zero d]
    simp only []
    have hklen : (H.drop 62).length = H.length - 62 := by simp
    rw [hklen]
    obtain ⟨rest, hrest, hrlen, hres⟩ := binaryRows_spec
      (d.drop (64 - (H.length - 62))).length 1 (d.drop (64 - (H.length - 62))) le_rfl
      (by simp only [List.length_drop]; omega)
    rw [show ([{ key := [48, 48] ++ H.take 62, val := H.drop 62 }] : List Slot).length = 1 from rfl]
    rw [hrest]
    simp only [List.nil_append, List.singleton_append, List.append_nil]
    refine ⟨_, rfl, ?_, ⟨[], H.drop 62 ++ d.take (64 - (H.length - 62)), rest, by simp⟩⟩
    -- decode side, case B
    have hHcons : H = 49 :: (S ++ M) := by rw [hHdef, hSdef]; simp
    have hT62 : H.take 62 = 49 :: (S ++ M.take (61 - S.length)) := by
      rw [hHcons]
      rw [show (62 : Nat) = 61 + 1 from rfl]
      rw [List.take_succ_cons]
      rw [List.take_append_eq_append_take]
      rw [List.take_of_length_le (by omega : S.length ≤ 61)]
    have hD62 : H.drop 62 = M.drop (61 - S.length) := by
      rw [hHcons]
      rw [show (62 : Nat) = 61 + 1 from rfl]
      rw [List.drop_succ_cons]
      rw [List.drop_append_eq_append_drop]
      rw [List.drop_eq_nil_of_le (by omega : S.length ≤ 61)]
      simp
    obtain ⟨m0, M', hMcons⟩ : ∃ a l, M = a :: l := by
      cases M with
      | nil => simp at hMpos
      | cons a l => exact ⟨a, l, rfl⟩
    rw [decodeStream]
    simp only [List.head?_cons, Except.bind, bind]
    have hkey1 : ([48, 48] ++ H.take 62 : Str)
        = [48, 48, 49] ++ (S ++ M.take (61 - S.length)) := by
      rw [hT62]
      simp
    rw [hkey1]
    set K : Str := [48, 48, 49] ++ (S ++ M.take (61 - S.length)) with hKdef
    rw [if_neg (by rw [hKdef]; simp)]
    have hKform : K = [48, 48, 49] ++ (natToDecStr M.length
        ++ (m0 :: (M'.take (60 - S.length)))) := by
      rw [hKdef, hSdef, hMcons]
      congr 2
      rw [show 61 - (natToDecStr (m0 :: M').length).length
          = (60 - (natToDecStr (m0 :: M').length).length) + 1 from by
        have := hL6
        rw [hSdef, hMcons] at this
        omega]
      rw [List.take_succ_cons]
    have hF2 : lenLoop K 3 7 [] = .ok (3 + S.length, S) := by
      rw [hKform]
      rw [lenLoop_decimal M.length (by omega) (by omega) m0
        (hdig m0 (by rw [hMcons]; rfl)) (M'.take (60 - S.length))]
    rw [hF2]
    simp only []
    have hSne : ¬(S = []) := by
      intro h
      rw [h] at hL1
      simp at hL1
    rw [if_neg hSne]
    have hml : decStrToNat S = M.length := by rw [hSdef]; exact decStrToNat_natToDecStr _
    rw [hml]
    rw [if_neg (by omega)]
    have hKalt2 : ([48, 48, 49] ++ S) ++ M.take (61 - S.length) = K := by
      rw [hKdef]
      simp
    have hF3 : (K.drop (3 + S.length)).take M.length = M.take (61 - S.length) := by
      rw [← hKalt2]
      rw [List.drop_left' (by simp; omega)]
      rw [List.take_take]
      rw [min_eq_right (by omega)]
    rw [hF3]
    have hmlen1 : (M.take (61 - S.length)).length = 61 - S.length := by
      simp only [List.length_take]
      omega
    rw [hmlen1]
    have hval1 : ((H.drop 62) ++ d.take (64 - (H.length - 62))).take (M.length - (61 - S.length))
        = M.drop (61 - S.length) := by
      rw [hD62]
      rw [show M.length - (61 - S.length) = (M.drop (61 - S.length)).length from by
        simp only [List.length_drop]]
      rw [List.take_left']
      rfl
    rw [hval1]
    rw [bytesToAscii_ok _ (fun c hc => hM c (List.mem_of_mem_drop hc))]
    simp only []
    rw [List.take_append_drop]
    rw [if_neg (by omega)]
    simp only []
    rw [if_neg (by simp)]
    have hdiv : (1 + (natToDecStr M.length).length + M.length) / 126 = 0 :=
      Nat.div_eq_of_lt (by rw [← hSdef]; omega)
    have hmod : (1 + (natToDecStr M.length).length + M.length) % 126 = H.length := by
      rw [← hSdef]
      omega
    rw [hdiv, hmod]
    simp only [List.get?_cons_zero]
    have hkdrop : K.drop (2 + H.length) = [] := by
      apply List.drop_eq_nil_of_le
      rw [hKdef]
      simp only [List.length_append, List.length_take, List.length_cons, List.length_nil]
      omega
    rw [hkdrop, base91decode_nil]
    have hvdrop : ((H.drop 62) ++ d.take (64 - (H.length - 62))).drop (H.length - 62)
        = d.take (64 - (H.length - 62)) := by
      apply List.drop_left'
      simp
    rw [hvdrop]
    simp only [List.drop_succ_cons, List.drop_zero, List.nil_append]
    rw [hres (fun x hx => hd x (List.mem_of_mem_drop hx))]
    rw [List.take_append_drop]

/-! ### Totality of encoding, slot-width bounds and truncation -/

lemma consumeFulls_ok : ∀ (slots : List Slot), (∀ s ∈ slots, ∀ c ∈ s.val, c < 128) →
    ∃ t, consumeFulls slots = .ok t := by
  intro slots
  induction slots with
  | nil => intro _; exact ⟨[], rfl⟩
  | cons s rest ih =>
    intro h
    rw [consumeFulls]
    rw [bytesToAscii_ok _ (h s (by simp))]
    obtain ⟨t, ht⟩ := ih (fun x hx => h x (by simp [hx]))
    simp only [Except.bind, bind]
    rw [ht]
    exact ⟨_, rfl⟩

lemma encode_ok (data : Bytes) (mts : List MediaDescriptor)
    (hdlen : data.length < 126000)
    (hs : mts.dropLast.all (fun dsc => (lookupParam dsc.params [115]).isSome) = true)
    (hhd : 1 + (natToDecStr (List.intercalate [44]
        (mts.map (fun dsc => render_media_type dsc.type_subtype dsc.params))).length).length
      + (List.intercalate [44]
        (mts.map (fun dsc => render_media_type dsc.type_subtype dsc.params))).length ≤ 1386)
    (hasc : ∀ c ∈ List.intercalate [44]
        (mts.map (fun dsc => render_media_type dsc.type_subtype dsc.params)), c < 128) :
    ∃ rows, encode data mts = .ok rows ∧ rows.length ≤ 1296 := by
  set M : Str := List.intercalate [44]
    (mts.map (fun dsc => render_media_type dsc.type_subtype dsc.params)) with hMdef
  rw [encode, if_neg (by omega), if_neg (by rw [hs]; simp)]
  rw [encodeCore]
  set H : Str := [49] ++ natToDecStr M.length ++ M with hHdef
  have hL1 : 1 ≤ (natToDecStr M.length).length := natToDecStr_length_pos _
  have hhlen : H.length = 1 + (natToDecStr M.length).length + M.length := by
    rw [hHdef]
    simp
    omega
  have hhascii : ∀ c ∈ H, c < 128 := by
    intro c hc
    rw [hHdef] at hc
    simp only [List.append_assoc, List.mem_append, List.mem_singleton] at hc
    rcases hc with h | h | h
    · omega
    · have := natToDecStr_digits M.length c h; omega
    · exact hasc c h
  obtain ⟨rows₀, hrows₀, hcount, hpos⟩ := headerRows_ok H.length 0 H (by omega) (by omega)
    (dvd_zero 126) (by omega) hhascii
  rw [hrows₀]
  simp only [Except.bind, bind]
  have hne : rows₀ ≠ [] := by
    intro hnil
    have := hpos (by omega)
    rw [hnil] at this
    simp at this
  rw [List.getLast?_eq_getLast rows₀ hne]
  simp only []
  obtain ⟨rest, hrest, hrestlen, _⟩ := binaryRows_spec
    (((_encode_nearest data (64 - (rows₀.getLast hne).key.length)).2.1.drop
      (64 - (rows₀.getLast hne).val.length)).length)
    rows₀.length
    ((_encode_nearest data (64 - (rows₀.getLast hne).key.length)).2.1.drop
      (64 - (rows₀.getLast hne).val.length))
    le_rfl
    (by
      obtain ⟨j, hj⟩ := encode_nearest_shape data (64 - (rows₀.getLast hne).key.length)
      rw [hj]
      simp only [List.length_drop]
      have hn11 : rows₀.length ≤ 11 := by omega
      have hd1 : (data.drop j).length ≤ data.length := by
        simp only [List.length_drop]; omega
      omega)
  rw [hrest]
  simp only []
  refine ⟨_, rfl, ?_⟩
  simp only [List.length_append, List.length_dropLast, List.length_singleton]
  have h1 : 1 ≤ rows₀.length := hpos (by omega)
  omega

/-- C4 (confirmed): whenever `encode` accepts its input and returns a slot
sequence, every slot has a key of at most 64 characters and a value of at
most 64 bytes. -/
theorem encode_slot_bounds (data : Bytes) (mts : List MediaDescriptor) (rows : List Slot)
    (h : encode data mts = .ok rows) :
    ∀ s ∈ rows, s.key.length ≤ 64 ∧ s.val.length ≤ 64 := by
  set M : Str := List.intercalate [44]
    (mts.map (fun dsc => render_media_type dsc.type_subtype dsc.params)) with hMdef
  rw [encode] at h
  by_cases h1 : 126000 ≤ data.length
  · rw [if_pos h1] at h; cases h
  · rw [if_neg h1] at h
    by_cases h2 : ¬ mts.dropLast.all (fun dsc => (lookupParam dsc.params [115]).isSome)
    · rw [if_pos h2] at h; cases h
    · rw [if_neg h2] at h
      rw [encodeCore] at h
      simp only [Except.bind, bind] at h
      rcases hrows : headerRows ([49] ++ natToDecStr M.length ++ M)
          ([49] ++ natToDecStr M.length ++ M).length 0 with e | rows₀
      · rw [hrows] at h; cases h
      · rw [hrows] at h
        dsimp only at h
        rcases hlast : rows₀.getLast? with _ | last
        · rw [hlast] at h; cases h
        · rw [hlast] at h
          dsimp only at h
          rcases hrest : binaryRows
              (((_encode_nearest data (64 - last.key.length)).2.1.drop
                (64 - last.val.length)).length)
              rows₀.length
              ((_encode_nearest data (64 - last.key.length)).2.1.drop (64 - last.val.length))
            with e | rest
          · rw [hrest] at h; cases h
          · rw [hrest] at h
            simp only [Except.ok.injEq] at h
            subst h
            intro s hs
            simp only [List.append_assoc, List.mem_append, List.mem_singleton] at hs
            rcases hs with hs | hs | hs
            · exact headerRows_bounds _ _ _ _ hrows s (List.mem_of_mem_dropLast hs)
            · subst hs
              have hlast64 := headerRows_bounds _ _ _ _ hrows last (List.mem_of_mem_getLast? hlast)
              constructor
              · simp only [List.length_append]
                have := encode_nearest_len_le data (64 - last.key.length)
                omega
              · simp only [List.length_append, List.length_take]
                omega
            · exact binaryRows_bounds _ _ _ _ hrest s hs

/-- C8 (confirmed): when the first slot declares a metadata length that the
available slots cannot satisfy — after taking what the first key and value
provide, a positive remainder `rem` is left and the sequence is too short to
cover it — `decode` fails with the error raised at the out-of-range slot
lookup (the modelled `KeyError` / `IndexError` site of the reassembly
loop). -/
theorem decode_truncated (rows : List Slot) (k1 : Str) (v1 : Bytes) (j : Nat) (ds : Str)
    (a b rem : Nat)
    (h0 : rows.head? = some ⟨k1, v1⟩)
    (hpre : k1.take 3 = [48, 48, 49])
    (hloop : lenLoop k1 3 7 [] = .ok (j, ds))
    (hne : ds ≠ [])
    (hcap : decStrToNat ds < 126000)
    (hv1 : ∀ c ∈ v1, c < 128)
    (hvals : ∀ s ∈ rows, ∀ c ∈ s.val, c < 128)
    (ha : a = min (decStrToNat ds) (k1.length - j))
    (hb : b = min (decStrToNat ds - a) v1.length)
    (hremdef : rem = decStrToNat ds - (a + b))
    (hpos : 0 < rem)
    (hshort : rows.length ≤ 1 + rem / 126) :
    decode rows = .error .indexOutOfRange := by
  have hstream : decodeStream rows = .error .indexOutOfRange := by
    rw [decodeStream, h0]
    simp only [Except.bind, bind]
    rw [if_neg (by rw [hpre]; simp)]
    rw [hloop]
    simp only []
    rw [if_neg hne]
    rw [if_neg (by omega)]
    have hm1 : ((k1.drop j).take (decStrToNat ds)).length = a := by
      rw [ha]
      simp only [List.length_take, List.length_drop]
    rw [bytesToAscii_ok _ (fun c hc => hv1 c (List.mem_of_mem_take hc))]
    simp only [List.length_append, hm1]
    have hm2 : (v1.take (decStrToNat ds - a)).length = b := by
      rw [hb]
      simp only [List.length_take]
    rw [hm2, ← hremdef]
    rw [if_pos hpos]
    obtain ⟨t, ht⟩ := consumeFulls_ok ((rows.drop 1).take (rem / 126))
      (fun s hs c hc => hvals s (List.mem_of_mem_drop (List.mem_of_mem_take hs)) c hc)
    rw [ht]
    simp only []
    rw [List.get?_len_le (by omega : rows.length ≤ 1 + rem / 126)]
  rw [decode, hstream]
  rfl

/-! ### Claim theorems -/

/-! ### Forward membership in an intercalation -/

lemma mem_intercalate_of_mem (s : Str) : ∀ (ls : List Str) (l : Str), l ∈ ls →
    ∀ c ∈ l, c ∈ List.intercalate s ls := by
  intro ls
  induction ls with
  | nil => intro l hl; cases hl
  | cons a t ih =>
    intro l hl c hc
    match t with
    | [] =>
      simp only [List.mem_singleton] at hl
      rw [show List.intercalate s [a] = a from by simp [List.intercalate]]
      exact hl ▸ hc
    | b :: t2 =>
      rw [intercalate_cons₂]
      simp only [List.mem_append]
      rcases List.mem_cons.mp hl with rfl | hl2
      · exact Or.inl (Or.inl hc)
      · exact Or.inr (ih l hl2 c hc)

/-! ### Claim C1 -/

/-- C1 counterexample: the descriptor `3/x` (no `s`, no `c` parameter) with
the empty payload satisfies every precondition of the claim, yet the round
trip fails: the metadata begins with a decimal digit, the self-delimiting
length parser of `decode` swallows it into the length field, and decoding
errors out instead of returning the descriptor. -/
theorem roundtrip_single_descriptor_cex :
    (encode [] [⟨[51, 47, 120], []⟩] >>= decode) ≠
      Except.ok ([⟨[51, 47, 120], []⟩], [([] : Bytes)]) := by
  decide

/-- C1 (corrected): the round trip through one descriptor holds only under
extra hypotheses the spec does not state: the rendered metadata must not
begin with a decimal digit, the header must fit in one slot (at most 125
characters), tokens must avoid the delimiter characters, and parameter keys
must be distinct.  Under those hypotheses `decode (encode d [dsc])` returns
exactly the descriptor and the payload. -/
theorem roundtrip_single_descriptor (d : Bytes) (mt : Str) (ps : List (Str × Str))
    (hd : ∀ b ∈ d, b < 256)
    (hdlen : d.length < 126000)
    (hs : lookupParam ps [115] = none)
    (hc : lookupParam ps [99] = none)
    (hnd : (ps.map Prod.fst).Nodup)
    (hmt : 44 ∉ mt ∧ 59 ∉ mt)
    (hps : ∀ kv ∈ ps, (44 ∉ kv.1 ∧ 59 ∉ kv.1 ∧ 61 ∉ kv.1) ∧
      (44 ∉ kv.2 ∧ 59 ∉ kv.2 ∧ 61 ∉ kv.2))
    (hasc : ∀ c ∈ render_media_type mt ps, c < 128)
    (hdig : ∀ c, (render_media_type mt ps).head? = some c → ¬(48 ≤ c ∧ c ≤ 57))
    (hsz : 1 + (natToDecStr (render_media_type mt ps).length).length
        + (render_media_type mt ps).length ≤ 125) :
    (encode d [⟨mt, ps⟩] >>= decode) = .ok ([⟨mt, ps⟩], [d]) := by
  have hint : List.intercalate [44]
      (([⟨mt, ps⟩] : List MediaDescriptor).map
        (fun dsc => render_media_type dsc.type_subtype dsc.params))
      = render_media_type mt ps := by
    simp [List.intercalate]
  obtain ⟨rows, hok, hstream, -⟩ :=
    encodeCore_decodeStream (render_media_type mt ps) d hasc hd hdig hsz hdlen
  rw [encode, if_neg (by omega), if_neg (by simp), hint, hok]
  show decode rows = Except.ok ([⟨mt, ps⟩], [d])
  rw [decode, hstream]
  simp only [Except.bind, bind]
  rw [parseMeta_single mt ps hmt hps hnd]
  dsimp only
  rw [splitBins_single ⟨mt, ps⟩ d hs hc]

/-- C1 witness: the round-trip theorem applied at the payload `0xff 0x07 0x00`
and the descriptor `a/b;n=x`. -/
theorem roundtrip_single_descriptor_witness :
    (encode [0, 255, 7] [⟨[97, 47, 98], [([110], [120])]⟩] >>= decode) =
      .ok ([⟨[97, 47, 98], [([110], [120])]⟩], [[0, 255, 7]]) :=
  roundtrip_single_descriptor [0, 255, 7] [97, 47, 98] [([110], [120])]
    (by decide) (by decide) (by decide) (by decide) (by decide) (by decide) (by decide)
    (by decide)
    (by
      intro c hcc
      rw [show (render_media_type [97, 47, 98] [([110], [120])]).head? = some 97 from rfl] at hcc
      injection hcc with h
      omega)
    (by decide)

/-! ### Claim C2 -/

/-- C2 (code bug): even when the declared `c` parameter is exactly the CRC32
of the payload, decoding fails with a checksum mismatch: line 153 of the
source compares the declared checksum, a `str` sliced out of the metadata,
against the `int` returned by `zlib.crc32`, and in Python values of
different types are never equal, so the guard fires on every declared
checksum. -/
theorem checksum_always_mismatches :
    (encode [104, 105] [⟨[97, 47, 98], [([99], natToDecStr (crc32 [104, 105]))]⟩] >>= decode) =
      .error (.checksumMismatch (natToDecStr (crc32 [104, 105])) (crc32 [104, 105])) := by
  decide

/-! ### Claim C3 -/

/-- C3 counterexample: decoding an encoding made with zero descriptors does
not return an empty descriptor list; the decoder maps the empty metadata
string to one descriptor with empty type and no parameters. -/
theorem empty_metadata_cex :
    (encode [104, 105] [] >>= decode) ≠
      Except.ok (([] : List MediaDescriptor), [[104, 105]]) := by
  decide

/-- C3 (corrected): with zero descriptors the first slot key does carry the
single length digit `0` (the key starts `0010`), and the round trip returns
the full payload — but paired with one empty descriptor, not with an empty
descriptor list. -/
theorem empty_metadata_roundtrip (d : Bytes) (hd : ∀ b ∈ d, b < 256)
    (hdlen : d.length < 126000) :
    (∃ rows k2 v2 tl, encode d [] = .ok rows ∧ rows = ⟨[48, 48, 49, 48] ++ k2, v2⟩ :: tl) ∧
    (encode d [] >>= decode) = .ok ([⟨[], []⟩], [d]) := by
  obtain ⟨rows, hok, hstream, k2, v2, tl, hshape⟩ :=
    encodeCore_decodeStream [] d (by simp) hd (by intro c hcc; simp at hcc) (by decide) hdlen
  have henc : encode d [] = .ok rows := by
    rw [encode, if_neg (by omega), if_neg (by simp)]
    exact hok
  constructor
  · refine ⟨rows, k2, v2, tl, henc, ?_⟩
    rw [hshape]
    rfl
  · rw [henc]
    show decode rows = Except.ok ([⟨[], []⟩], [d])
    rw [decode, hstream]
    simp only [Except.bind, bind]
    rw [show parseMeta ([] : Str) = .ok [⟨[], []⟩] from rfl]
    dsimp only
    rw [splitBins_single ⟨[], []⟩ d rfl rfl]

/-- C3 witness: the corrected empty-metadata round trip at the payload
`hi`. -/
theorem empty_metadata_roundtrip_witness :
    (∃ rows k2 v2 tl, encode [104, 105] [] = .ok rows ∧
      rows = ⟨[48, 48, 49, 48] ++ k2, v2⟩ :: tl) ∧
    (encode [104, 105] [] >>= decode) = .ok ([⟨[], []⟩], [[104, 105]]) :=
  empty_metadata_roundtrip [104, 105] (by decide) (by decide)

/-! ### Claim C9 -/

/-- C9 (confirmed): a payload of 126000 bytes or more is rejected with the
oversize error for every descriptor list, and a 125999-byte payload is
accepted (shown with zero descriptors, which also bounds the slot count). -/
theorem size_cap_boundary :
    (∀ (data : Bytes) (mts : List MediaDescriptor), 126000 ≤ data.length →
      encode data mts = .error .payloadTooLarge) ∧
    (∀ data : Bytes, data.length = 125999 →
      ∃ rows, encode data [] = .ok rows ∧ rows.length ≤ 1296) := by
  constructor
  · intro data mts h
    rw [encode, if_pos h]
  · intro data h
    exact encode_ok data [] (by omega) rfl (by decide) (by decide)

/-- C9 witness: the boundary theorem at the all-zero payloads of lengths
126000 and 125999. -/
theorem size_cap_boundary_witness :
    encode (List.replicate 126000 0) [] = .error .payloadTooLarge ∧
    ∃ rows, encode (List.replicate 125999 0) [] = .ok rows ∧ rows.length ≤ 1296 :=
  ⟨size_cap_boundary.1 (List.replicate 126000 0) []
      (le_of_eq (List.length_replicate 126000 0).symm),
   size_cap_boundary.2 (List.replicate 125999 0) (List.length_replicate 125999 0)⟩

/-! ### Claim C5 -/

/-- C5 counterexample: on the one-byte input with budget 64 the near-fit
routine consumes the whole input (the remainder is empty), yet reports 59
consumed bytes — the starting candidate of the downward search, not the
prefix length it actually encoded.  The spec says the third component is
the prefix length. -/
theorem nearest_fit_cex :
    _encode_nearest [97] 64 = (base91encode [97], [], 59) ∧
    ([97] : Bytes).length = 1 ∧ 59 ≠ 1 := by
  refine ⟨by decide, rfl, by omega⟩

/-- C5 (corrected): the near-fit routine tests only one candidate count
before giving up: it returns the slice at the starting candidate
`⌈10·n/11⌉` (clamped to the data) whenever that slice fits the budget, and
otherwise falls to the largest fitting prefix; the reported consumed count
is the candidate, which can exceed the actual prefix length.  When the
budget admits no nonzero prefix it does return the unmodified data with
zero consumed bytes. -/
theorem nearest_fit_behavior (data : Bytes) (n : Nat) :
    (_encode_nearest data n =
      if min (nearestStart n) data.length ≤ maxFit n then
        (base91encode (data.take (nearestStart n)), data.drop (nearestStart n), nearestStart n)
      else
        (base91encode (data.take (maxFit n)), data.drop (maxFit n), maxFit n)) ∧
    (maxFit n = 0 → data ≠ [] → _encode_nearest data n = ([], data, 0)) := by
  refine ⟨encode_nearest_eq data n, fun h0 hne => ?_⟩
  rw [encode_nearest_eq data n]
  by_cases hcc : min (nearestStart n) data.length ≤ maxFit n
  · rw [if_pos hcc]
    have hd0 : data.length ≠ 0 := fun h => hne (List.eq_nil_of_length_eq_zero h)
    have hns : nearestStart n = 0 := by omega
    rw [hns]
    simp
  · rw [if_neg hcc, h0]
    simp

/-- C5 witness: with budget 0 and a nonempty input the routine returns the
unmodified data and zero consumed bytes. -/
theorem nearest_fit_behavior_witness :
    maxFit 0 = 0 ∧ ([5] : Bytes) ≠ [] ∧ _encode_nearest [5] 0 = ([], [5], 0) :=
  ⟨rfl, by decide, (nearest_fit_behavior [5] 0).2 rfl (by decide)⟩

/-! ### Claim C6 -/

/-- C6 counterexample: a type token that is a space character and a
parameter whose key is `=` and whose value is `;` render without any error
into the five-character output string — the forbidden characters pass
straight through. -/
theorem render_no_validation_cex :
    render_media_type [32] [([61], [59])] = [32, 59, 61, 61, 59] := by
  decide

/-- C6 (corrected): `render_media_type` performs no validation at all: it is
a total function, its output always starts with the type token verbatim,
and every character of every parameter token — whitespace, `=` and `;`
included — appears in the output. -/
theorem render_no_validation (mt : Str) (ps : List (Str × Str)) :
    (∃ tail, render_media_type mt ps = mt ++ tail) ∧
    (∀ kv ∈ ps, ∀ c, (c ∈ kv.1 ∨ c ∈ kv.2) → c ∈ render_media_type mt ps) := by
  constructor
  · exact ⟨_, by rw [render_media_type, List.append_assoc]⟩
  · intro kv hkv c hcc
    rw [render_media_type]
    simp only [List.mem_append]
    refine Or.inr (mem_intercalate_of_mem [59] (ps.map (fun p => p.1 ++ [61] ++ p.2))
      (kv.1 ++ [61] ++ kv.2)
      (List.mem_map_of_mem (fun p : Str × Str => p.1 ++ [61] ++ p.2) hkv) c ?_)
    simp only [List.mem_append, List.mem_singleton]
    tauto

/-- C6 witness: the no-validation theorem at the space/`=`/`;` tokens. -/
theorem render_no_validation_witness :
    (∃ tail, render_media_type [32] [([61], [59])] = [32] ++ tail) ∧
    (59 : Nat) ∈ render_media_type [32] [([61], [59])] :=
  ⟨(render_no_validation [32] [([61], [59])]).1,
   (render_no_validation [32] [([61], [59])]).2 ([61], [59]) (by decide) 59 (Or.inr (by decide))⟩

/-! ### Claim C7 -/

/-- C7 counterexample: a frame declaring two descriptors of which the first
(a non-last one) has no `s` parameter decodes without any error: the first
descriptor silently takes all remaining bytes and the second receives the
empty string.  No AttachmentCountMismatch exists anywhere in the source. -/
theorem attachment_count_cex :
    decode [⟨[48, 48, 49, 55, 97, 47, 98, 44, 99, 47, 100], [1, 2, 3]⟩] =
      .ok ([⟨[97, 47, 98], []⟩, ⟨[99, 47, 100], []⟩], [[1, 2, 3], []]) := by
  decide

/-- C7 (corrected): the attachment-splitting phase never fails on account of
descriptor counts or missing `s` parameters: whenever no descriptor declares
a `c` checksum and every declared `s` value is a digit string, splitting
succeeds and returns exactly one byte string per descriptor — a missing `s`
defaults to all remaining bytes and a shortfall yields empty slices, with no
error in either case. -/
theorem splitbins_no_count_check (mts : List MediaDescriptor) (binary : Bytes)
    (h : ∀ dsc ∈ mts, lookupParam dsc.params [99] = none ∧
      (∀ v, lookupParam dsc.params [115] = some v →
        v ≠ [] ∧ ∀ c ∈ v, 48 ≤ c ∧ c ≤ 57)) :
    ∃ bs, splitBins mts binary = .ok bs ∧ bs.length = mts.length :=
  splitBins_total mts binary h

/-- C7 witness: two descriptors without parameters split three bytes into
two pieces without error. -/
theorem splitbins_no_count_check_witness :
    ∃ bs, splitBins [⟨[97], []⟩, ⟨[98], []⟩] [1, 2, 3] = .ok bs ∧ bs.length = 2 :=
  splitbins_no_count_check [⟨[97], []⟩, ⟨[98], []⟩] [1, 2, 3]
    (by
      intro dsc hdsc
      simp only [List.mem_cons, List.not_mem_nil, or_false] at hdsc
      rcases hdsc with rfl | rfl <;>
        exact ⟨rfl, fun v hv => Option.noConfusion hv⟩)

/-! ### Claim C10 -/

set_option maxRecDepth 10000 in
/-- C10 counterexample: the empty payload (well under the size cap) with one
descriptor whose parameter value is 1378 characters long drives the header
loop past offset 1295; the index guard of `_encode_index` fires and encode
fails even though the payload size precondition holds. -/
theorem header_overflow_cex :
    encode [] [⟨[116], [([110], List.replicate 1378 120)]⟩] = .error .indexOutOfRange := by
  decide

/-- C10 (corrected): the index guard is unreachable only under an additional
bound the spec never states: the frame header (version digit, decimal
length, rendered metadata) must not exceed 1386 characters.  Under that
bound — together with the documented preconditions — encode succeeds and
produces at most 1296 slots. -/
theorem encode_bounded_header_ok (data : Bytes) (mts : List MediaDescriptor)
    (hdlen : data.length < 126000)
    (hs : mts.dropLast.all (fun dsc => (lookupParam dsc.params [115]).isSome) = true)
    (hhd : 1 + (natToDecStr (List.intercalate [44]
        (mts.map (fun dsc => render_media_type dsc.type_subtype dsc.params))).length).length
      + (List.intercalate [44]
        (mts.map (fun dsc => render_media_type dsc.type_subtype dsc.params))).length ≤ 1386)
    (hasc : ∀ c ∈ List.intercalate [44]
        (mts.map (fun dsc => render_media_type dsc.type_subtype dsc.params)), c < 128) :
    ∃ rows, encode data mts = .ok rows ∧ rows.length ≤ 1296 :=
  encode_ok data mts hdlen hs hhd hasc

/-- C10 witness: the bounded-header theorem at a two-byte payload with no
descriptors. -/
theorem encode_bounded_header_ok_witness :
    ∃ rows, encode [5, 6] [] = .ok rows ∧ rows.length ≤ 1296 :=
  encode_bounded_header_ok [5, 6] [] (by decide) rfl (by decide) (by decide)

/-! ### Witnesses for the transplanted claim theorems C4 and C8 -/

/-- C4 witness: the slot-width theorem applied to the concrete run
`encode "hi" []`, whose single slot it bounds. -/
theorem encode_slot_bounds_witness :
    (⟨[48, 48, 49, 48, 81, 56, 36], []⟩ : Slot).key.length ≤ 64 ∧
    (⟨[48, 48, 49, 48, 81, 56, 36], []⟩ : Slot).val.length ≤ 64 :=
  encode_slot_bounds [104, 105] [] [⟨[48, 48, 49, 48, 81, 56, 36], []⟩]
    (by decide) ⟨[48, 48, 49, 48, 81, 56, 36], []⟩ (by decide)

/-- C8 witness: a single slot declaring five metadata characters but
carrying only two; decode fails with the key error raised on the truncated
slot sequence. -/
theorem decode_truncated_witness :
    decode [⟨[48, 48, 49, 53, 97, 98], []⟩] = .error .indexOutOfRange :=
  decode_truncated [⟨[48, 48, 49, 53, 97, 98], []⟩] [48, 48, 49, 53, 97, 98] [] 4 [53]
    2 0 3 (by decide) (by decide) (by decide) (by decide) (by decide) (by decide)
    (by decide) (by decide) (by decide) (by decide) (by decide) (by decide)

end Sep39
